import Mathlib

/-!
# WitsShell: the command-line parsing and execution engine of `witsshell.c`

A shallow embedding of `src/Wits-Shell-Tester/witsshell.c`.

* A C string is the list of its characters; the end of the list is the
  terminating NUL.  A NUL character inside the list also terminates the string
  for the code, exactly as in C, so the scanning loops test for it.
* An array that the code fills from index 0 upwards is the list of the values
  written, in index order.  The code never tests an index against the
  capacities `MAX_TOKENS`, `MAX_COMMANDS` and `MAX_PATH_DIRS`: a write at an
  index outside the array leaves defined behaviour, and so does a word whose
  length does not fit the `int len` of `tokenize`.  The embedding follows a run
  up to such a point and no further: the functions give `none`, the record of
  the shell ends with the step `fault`, and nothing is said about what the
  process does after it.
* The operating system is an oracle `OS`; what a process does is the list of
  its steps on record (`Event`), oldest first.
-/

namespace WitsShell

/-- A C string: its characters up to the terminating NUL. -/
abbrev CString := List Char

def MAX_ARGS : Nat := 64

def MAX_PATH_DIRS : Nat := 64

def MAX_TOKENS : Nat := 100

def MAX_COMMANDS : Nat := 10

/-- The fixed message `ERROR_MSG`. -/
def ERROR_MSG : CString := "An error has occurred\n".toList

/-- The C string held in a buffer: the characters before the first NUL. -/
def c_string (buf : List Char) : CString := buf.takeWhile (fun c => c ≠ '\x00')

/-- The dereference `*p` of a pointer into a C string: NUL at the end. -/
def deref (p : CString) : Char := p.headD '\x00'

/-- The inner loop `while (*p == ' ' || *p == '\t') p++;` of `tokenize`. -/
def skip_blanks : CString → CString
  | [] => []
  | c :: cs => if c = ' ' ∨ c = '\t' then skip_blanks cs else c :: cs

/-- The word loop of `tokenize`:
`while (*p != ' ' && *p != '\t' && *p != '&' && *p != '>' && *p != '\0') p++;`
returns the characters passed over (`start .. p`) and the new `p`.  What the
code makes of the characters passed over is `word_token`. -/
def scan_word : CString → CString × CString
  | [] => ([], [])
  | c :: cs =>
    if c ≠ ' ' ∧ c ≠ '\t' ∧ c ≠ '&' ∧ c ≠ '>' ∧ c ≠ '\x00' then
      ((scan_word cs).1.cons c, (scan_word cs).2)
    else ([], c :: cs)

/-- The value of `int len = p - start;` for a run of `n` characters: the
difference reduced to the 32 bits of an `int`, in two's complement. -/
def int_len (n : Nat) : Int :=
  if n % 4294967296 < 2147483648 then ((n % 4294967296 : Nat) : Int)
  else ((n % 4294967296 : Nat) : Int) - 4294967296

/-- Lines 140-143 of `tokenize` for the run `w` of characters `start .. p`:
`malloc(len + 1)`, `strncpy(.., start, len)` and the terminating NUL give the
first `len` characters of the run.  `none` when `len` is negative (the size
given to `malloc` and `strncpy` is then out of range and the copy writes
outside the allocation) or when `len + 1` overflows `int`. -/
def word_token (w : CString) : Option CString :=
  if 0 ≤ int_len w.length ∧ int_len w.length + 1 < 2147483648 then
    some (w.take (int_len w.length).toNat)
  else none

/-- The outer loop `while (*p) { ... }` of `tokenize` with `token_count`, one
unit of fuel per iteration.  The outer `none` says the fuel ran out before the
loop ended; `some none` says the run left defined behaviour: a write
`(*tokens)[token_count] = ..` with `token_count` outside the `MAX_TOKENS`
entries allocated, or a word that `word_token` cannot store. -/
def tokenize_loop : Nat → CString → Nat → Option (Option (List CString))
  | 0, _, _ => none
  | fuel + 1, p, token_count =>
    if deref p = '\x00' then some (some [])
    else
      let p := skip_blanks p
      if deref p = '\x00' then some (some [])
      else if deref p = '&' ∨ deref p = '>' then
        if token_count < MAX_TOKENS then
          (tokenize_loop fuel p.tail (token_count + 1)).map (Option.map (List.cons [deref p]))
        else some none
      else
        if token_count < MAX_TOKENS then
          match word_token (scan_word p).1 with
          | some token =>
            (tokenize_loop fuel (scan_word p).2 (token_count + 1)).map
              (Option.map (List.cons token))
          | none => some none
        else some none

/-- The function `tokenize`: the tokens written to `*tokens`, in index order
(`token_count` is the length), or `none` when the run leaves defined
behaviour.  Every iteration of the outer loop that does not end it consumes a
character, so `strlen(line) + 1` iterations are enough. -/
def tokenize (line : CString) : Option (List CString) :=
  (tokenize_loop (line.length + 1) line 0).getD none

/-- The token `"&"` that `split_commands` compares with (`strcmp(.., "&") == 0`). -/
def AMP : CString := ['&']

/-- The token `">"` that `parse_and_execute` compares with. -/
def GT : CString := ['>']

/-- The `for` loop of `split_commands` followed by the code after it, with
`*command_count`, as the list of the index ranges copied: one pair
`(start, length)` for each segment stored in `*commands`, in index order.  The
first argument counts the iterations left, `token_count - i`.  `none` when a
write `(*commands)[*command_count] = ..` falls outside the `MAX_COMMANDS`
entries allocated. -/
def split_loop (tokens : List CString) : Nat → Nat → Nat → Nat → Option (List (Nat × Nat))
  | 0, i, start, command_count =>
    if i - start > 0 then
      if command_count < MAX_COMMANDS then some [(start, i - start)] else none
    else some []
  | n + 1, i, start, command_count =>
    if tokens[i]? = some AMP then
      if i - start > 0 then
        if command_count < MAX_COMMANDS then
          (split_loop tokens n (i + 1) (i + 1) (command_count + 1)).map
            (List.cons (start, i - start))
        else none
      else split_loop tokens n (i + 1) (i + 1) command_count
    else split_loop tokens n (i + 1) start command_count

/-- The invariant of the loop of `split_commands`, with `n` iterations left: the
tokens from `start` up to `i` hold no `"&"`. -/
def split_inv (tokens : List CString) (n i start : Nat) : Prop :=
  i + n = tokens.length ∧ start ≤ i ∧ ∀ k, start ≤ k → k < i → tokens[k]? ≠ some AMP

/-- The ranges `(start, length)` of the segments `split_commands` stores. -/
def split_ranges (tokens : List CString) : Option (List (Nat × Nat)) :=
  split_loop tokens tokens.length 0 0 0

/-- The copy loop `for (j = 0; j < length; j++) .. = tokens[start + j]`. -/
def slice (tokens : List CString) (r : Nat × Nat) : List CString :=
  (tokens.drop r.1).take r.2

/-- The function `split_commands`: the segments written to `*commands`, in index
order (`*command_count` is the length); each is the NULL-terminated array of
the tokens copied.  `none` when a write falls outside `*commands`. -/
def split_commands (tokens : List CString) : Option (List (List CString)) :=
  (split_ranges tokens).map (List.map (slice tokens))

/-- A step of a process that is kept on record: a system call, with its result
where the code reads it; the entry into `execute_single_command` with the
arguments `args`, `redirect` and `redirect_file` it was given (`call`); or the
point where the run leaves defined behaviour (`fault`), after which nothing is
recorded. -/
inductive Event where
  | call (args : List CString) (redirect : Bool) (redirect_file : Option CString)
  | write (fd : Nat) (bytes : CString)
  | chdir (dir : CString) (ok : Bool)
  | fork (result : Int)
  | waitpid (pid : Int)
  | openFile (file : CString) (ok : Bool)
  | dup2 (newfd : Nat)
  | close
  | execv (path : CString) (argv : List CString)
  | exit (status : Nat)
  | getline (line : Option CString)
  | fault
  deriving DecidableEq, Repr

/-- The operating system, as far as the shell asks it. -/
structure OS where
  /-- Tells whether `access(path, X_OK) == 0`. -/
  access : CString → Bool
  /-- Gives the new working directory when `chdir(dir)` succeeds in `cwd`. -/
  chdir : (cwd dir : CString) → Option CString
  /-- Tells whether `open(file, O_CREAT | O_TRUNC | O_WRONLY, 0666)` succeeds. -/
  openFile : CString → Bool
  /-- Gives the result of `fork()` in the calling process after the events so
  far: `none` for failure (`-1`), `some k` for the new child with pid `k + 1`. -/
  fork : List Event → Option Nat
  /-- Tells whether `execv(path, argv)` replaces the program image. -/
  execv : CString → List CString → Bool

/-- A child process launched by the shell: its pid and what it did. -/
structure Child where
  pid : Int
  events : List Event
  deriving DecidableEq, Repr

/-- The state of the shell process: the globals `path_dirs` (with `path_count`
its length), the working directory, the steps on record so far and the
children launched so far. -/
structure Shell where
  path_dirs : List CString
  cwd : CString
  events : List Event
  children : List Child
  deriving DecidableEq, Repr

/-- The function `init_path`, in a process started in directory `cwd`. -/
def init_path (cwd : CString) : Shell :=
  { path_dirs := [['/', 'b', 'i', 'n']], cwd := cwd, events := [], children := [] }

/-- The function `set_path`: `free_path` and then `dirs[0 .. count-1]` stored in
`path_dirs`, in index order.  `none` when `count` exceeds the `MAX_PATH_DIRS`
entries of `path_dirs`, so that the loop writes outside the array. -/
def set_path (st : Shell) (dirs : List CString) : Option Shell :=
  if dirs.length ≤ MAX_PATH_DIRS then some { st with path_dirs := dirs } else none

/-- Appends a step to the record of the shell process. -/
def Shell.emit (st : Shell) (e : Event) : Shell :=
  { st with events := st.events ++ [e] }

/-- The statement `write(STDERR_FILENO, ERROR_MSG, strlen(ERROR_MSG));`. -/
def write_error (st : Shell) : Shell :=
  st.emit (.write 2 ERROR_MSG)

/-- The `for` loop of `resolve_command` over `path_dirs`. -/
def resolve_in (os : OS) (cmd : CString) : List CString → Option CString
  | [] => none
  | dir :: dirs =>
    if os.access (dir ++ '/' :: cmd) then some (dir ++ '/' :: cmd)
    else resolve_in os cmd dirs

/-- The function `resolve_command`; `none` is `NULL`. -/
def resolve_command (os : OS) (path_dirs : List CString) (cmd : CString) :
    Option CString :=
  if '/' ∈ cmd then
    if os.access cmd then some cmd else none
  else resolve_in os cmd path_dirs

/-- The function `execute_redirection` in a child: its system calls, and whether
it returns (`false` when it ends the child with `_exit(1)`).  A `NULL` file
makes `open` fail. -/
def execute_redirection (os : OS) (file : Option CString) : List Event × Bool :=
  match file with
  | none => ([.write 2 ERROR_MSG, .exit 1], false)
  | some f =>
    if os.openFile f then ([.openFile f true, .dup2 1, .dup2 2, .close], true)
    else ([.openFile f false, .write 2 ERROR_MSG, .exit 1], false)

/-- The debug output of the child before `execv`. -/
def debug_print (args : List CString) : List Event :=
  [.write 2 "execv args: ".toList] ++
    args.map (fun a => .write 2 ('\'' :: a ++ ['\'', ' '])) ++ [.write 2 ['\n']]

/-- The branch `pid == 0` of `execute_single_command`: everything the child
does.  It never returns: it ends with `_exit(1)` or in `execv`. -/
def child_run (os : OS) (path_dirs : List CString) (args : List CString)
    (redirect : Bool) (redirect_file : Option CString) : List Event :=
  let r := if redirect then execute_redirection os redirect_file else ([], true)
  if r.2 = false then r.1
  else
    match resolve_command os path_dirs (args.headD []) with
    | none => r.1 ++ [.write 2 ERROR_MSG, .exit 1]
    | some cmd_path =>
      r.1 ++ debug_print args ++ [.execv cmd_path args] ++
        (if os.execv cmd_path args then [] else [.write 2 ERROR_MSG, .exit 1])

def EXIT : CString := ['e', 'x', 'i', 't']

def CD : CString := ['c', 'd']

def PATH : CString := ['p', 'a', 't', 'h']

/-- The function `execute_single_command` in the shell process; `args` is the
NULL-terminated array and `argc` its length.  The entry is put on record first.
The result is the new state and the value returned, or `none` when the function
does not return: the process ended in `exit(0)` (last step `exit 0`) or the run
left defined behaviour in `set_path` (last step `fault`). -/
def execute_single_command (os : OS) (st0 : Shell) (args : List CString)
    (redirect : Bool) (redirect_file : Option CString) (_parallel : Bool) :
    Shell × Option Int :=
  let st := st0.emit (.call args redirect redirect_file)
  match args with
  | [] => (st, some 0)
  | cmd :: rest =>
    if cmd = EXIT then
      if (cmd :: rest).length ≠ 1 then (write_error st, some 0)
      else (st.emit (.exit 0), none)
    else if cmd = CD then
      if (cmd :: rest).length ≠ 2 then (write_error st, some 0)
      else
        match os.chdir st.cwd (rest.headD []) with
        | some d => ({ st.emit (.chdir (rest.headD []) true) with cwd := d }, some 0)
        | none => (write_error (st.emit (.chdir (rest.headD []) false)), some 0)
    else if cmd = PATH then
      match set_path st rest with
      | some st1 => (st1, some 0)
      | none => (st.emit .fault, none)
    else
      match os.fork st.events with
      | none => (write_error (st.emit (.fork (-1))), some (-1))
      | some k =>
        ({ st.emit (.fork (k + 1)) with
            children := st.children ++
              [⟨k + 1, child_run os st.path_dirs (cmd :: rest) redirect redirect_file⟩] },
          some (k + 1))

/-- The search `for (j = 0; j < argc; j++) if (strcmp(command[j], ">") == 0)`
of `parse_and_execute`, from index `j`: the index found, or `-1`. -/
def find_redirect : List CString → Nat → Int
  | [], _ => -1
  | t :: ts, j => if t = GT then j else find_redirect ts (j + 1)

/-- What the redirection checks of `parse_and_execute` make of a segment. -/
inductive Redirection where
  | malformed
  | parsed (args : List CString) (redirect : Bool) (redirect_file : Option CString)
  deriving DecidableEq, Repr

/-- Lines 204-230 of `parse_and_execute` for one segment: `malformed` where the
code writes the error and continues; otherwise the array `command` cut at
`redirect_index` (with `argc` its length), `redirect` and `redirect_file`. -/
def parse_redirection (command : List CString) : Redirection :=
  let argc : Int := command.length
  let redirect_index := find_redirect command 0
  if redirect_index ≠ -1 then
    if redirect_index = argc - 1 then .malformed
    else if argc - redirect_index > 2 then .malformed
    else
      .parsed (command.take redirect_index.toNat) true
        command[(redirect_index + 1).toNat]?
  else .parsed command false none

/-- Lines 238-240 of `parse_and_execute` after `execute_single_command` gave
`result`, with the pids recorded so far (`pids[0 .. pid_count-1]`):
`if (pid > 0) pids[pid_count++] = pid;`.  The run ends in `fault` when
`pid_count` is outside the `MAX_COMMANDS` entries of `pids`. -/
def record_pid (pids : List Int) (result : Shell × Option Int) : Shell × Option (List Int) :=
  match result with
  | (st1, none) => (st1, none)
  | (st1, some pid) =>
    if pid > 0 then
      if pids.length < MAX_COMMANDS then (st1, some (pids ++ [pid]))
      else (st1.emit .fault, none)
    else (st1, some pids)

/-- The body of the first `for` loop of `parse_and_execute` for the segment
`command`, with the pids recorded so far: the new state and pids, or `none`
when the run does not go on (`exit(0)` or `fault`). -/
def run_command (os : OS) (parallel : Bool) (command : List CString) (st : Shell)
    (pids : List Int) : Shell × Option (List Int) :=
  match parse_redirection command with
  | .malformed => (write_error st, some pids)
  | .parsed args redirect redirect_file =>
    if args.length = 0 then (write_error st, some pids)
    else record_pid pids (execute_single_command os st args redirect redirect_file parallel)

/-- The first `for` loop of `parse_and_execute` over the segments left; `none`
when the run does not go on (`exit(0)` or `fault`). -/
def run_commands (os : OS) (parallel : Bool) :
    List (List CString) → Shell → List Int → Shell × Option (List Int)
  | [], st, pids => (st, some pids)
  | command :: rest, st, pids =>
    match run_command os parallel command st pids with
    | (st1, none) => (st1, none)
    | (st1, some pids1) => run_commands os parallel rest st1 pids1

/-- The second `for` loop of `parse_and_execute`: `waitpid` on each pid. -/
def wait_all : List Int → Shell → Shell
  | [], st => st
  | pid :: pids, st => wait_all pids (st.emit (.waitpid pid))

/-- The function `parse_and_execute`; `none` when it does not return: the
process ended in `exit(0)`, or the run left defined behaviour (last step
`fault`) in `tokenize`, in `split_commands` or further on. -/
def parse_and_execute (os : OS) (st : Shell) (line : CString) : Shell × Option Unit :=
  match tokenize line with
  | none => (st.emit .fault, none)
  | some tokens =>
    if tokens.length = 0 then (st, some ())
    else
      match split_commands tokens with
      | none => (st.emit .fault, none)
      | some commands =>
        match run_commands os (decide (commands.length > 1)) commands st [] with
        | (st1, none) => (st1, none)
        | (st1, some pids) => (wait_all pids st1, some ())

/-- The end of the line as `main` cuts it: the C string in the buffer without
its last character when that is a newline. -/
def chomp (line : CString) : CString :=
  if (c_string line).getLast? = some '\n' then (c_string line).dropLast else c_string line

/-- The `while (1)` loop of `main` over the lines that `getline` returns, the
end of input after them; `none` when `parse_and_execute` did not return. -/
def main_loop (os : OS) (interactive : Bool) : List CString → Shell → Shell × Option Unit
  | [], st =>
    (((if interactive then st.emit (.write 1 "witsshell> ".toList) else st).emit
      (.getline none)), some ())
  | line :: rest, st =>
    match parse_and_execute os
      ((if interactive then st.emit (.write 1 "witsshell> ".toList) else st).emit
        (.getline (some line))) (chomp line) with
    | (st1, none) => (st1, none)
    | (st1, some _) => main_loop os interactive rest st1

/-- A sample operating system for the worked examples: only `/bin/ls` is
executable, only `/tmp` can be entered, every file can be opened, `fork` gives
the pids 42, 43, .. in turn and `execv` succeeds. -/
def sample_os : OS where
  access := fun path => decide (path = "/bin/ls".toList)
  chdir := fun _ dir => if dir = "/tmp".toList then some dir else none
  openFile := fun _ => true
  fork := fun events => some (41 + events.countP (fun e => e matches .fork _))
  execv := fun _ _ => true

/-- Tells whether a step is a call of `fork`, successful or not. -/
def is_fork : Event → Bool
  | .fork _ => true
  | _ => false

/-- The pids returned by the successful calls of `fork` among the steps, in order. -/
def fork_pids (events : List Event) : List Int :=
  events.filterMap (fun e => match e with
    | .fork result => if result > 0 then some result else none
    | _ => none)

/-- The pids passed to `waitpid` among the steps, in order. -/
def waited_pids (events : List Event) : List Int :=
  events.filterMap (fun e => match e with
    | .waitpid pid => some pid
    | _ => none)

/-- The bytes written to the file descriptor `fd` among the steps, in order. -/
def written (fd : Nat) (events : List Event) : CString :=
  (events.filterMap (fun e => match e with
    | .write fd1 bytes => if fd1 = fd then some bytes else none
    | _ => none)).flatten

/-- Tells whether a command name is one of the built-ins `exit`, `cd`, `path`. -/
def is_builtin (cmd : CString) : Bool := cmd = EXIT || cmd = CD || cmd = PATH

/-- Tells whether a segment passes the redirection checks with a non-empty
argument list whose first token is not a built-in: the segments for which
`execute_single_command` reaches `fork`. -/
def forks_child (command : List CString) : Bool :=
  match parse_redirection command with
  | .parsed (cmd :: _) _ _ => !is_builtin cmd
  | _ => false

/-- The segments of a token list by recursion on the list, with the tokens
collected since the last `"&"`: a second description of what `split_commands`
stores, used to split a list of tokens given as a concatenation. -/
def segments_from (cur : List CString) : List CString → List (List CString)
  | [] => if cur = [] then [] else [cur]
  | t :: ts =>
    if t = AMP then (if cur = [] then [] else [cur]) ++ segments_from [] ts
    else segments_from (cur ++ [t]) ts

/-- A blank: a character the tokenizer treats as a separator. -/
def is_blank (c : Char) : Bool := c = ' ' || c = '\t'

/-- A marker: the parallel marker or the redirection marker. -/
def is_marker (c : Char) : Bool := c = '&' || c = '>'

/-- The reference token sequence in the words of the specification, reading
left to right with the run of word characters collected so far: a blank ends
the run and produces nothing, a marker ends the run and becomes its own
one-character token, any other character extends the run; a run that ends
(at a blank, a marker or the end of the line) is maximal and becomes one word
token when it is not empty. -/
def spec_tokens_from (run : CString) : CString → List CString
  | [] => if run = [] then [] else [run]
  | c :: cs =>
    if is_blank c then (if run = [] then [] else [run]) ++ spec_tokens_from [] cs
    else if is_marker c then
      (if run = [] then [] else [run]) ++ [c] :: spec_tokens_from [] cs
    else spec_tokens_from (run ++ [c]) cs

/-- The reference token sequence of a line, in the words of the specification. -/
def spec_tokens (line : CString) : List CString := spec_tokens_from [] line

/-- What `tokenize` makes of the reference token sequence `runs`, from the
index `token_count` on: each run is stored through `word_token` at the next
index; `none` when an index is outside the `MAX_TOKENS` entries or a run
cannot be stored. -/
def stored_tokens : List CString → Nat → Option (List CString)
  | [], _ => some []
  | w :: ws, token_count =>
    if token_count < MAX_TOKENS then
      match word_token w with
      | some token => (stored_tokens ws (token_count + 1)).map (List.cons token)
      | none => none
    else none


/-! ## The tokenizer -/

theorem deref_cons (c : Char) (cs : CString) : deref (c :: cs) = c := rfl

theorem deref_nil : deref [] = '\x00' := rfl

theorem c_string_of_deref {p : CString} (h : deref p = '\x00') : c_string p = [] := by
  cases p with
  | nil => rfl
  | cons c cs =>
    simp only [deref_cons] at h
    simp [c_string, h]

theorem c_string_cons {c : Char} (cs : CString) (h : c ≠ '\x00') :
    c_string (c :: cs) = c :: c_string cs := by
  simp [c_string, h]

theorem c_string_of_no_nul {p : CString} (h : '\x00' ∉ p) : c_string p = p := by
  induction p with
  | nil => rfl
  | cons c cs ih =>
    simp only [List.mem_cons, not_or] at h
    rw [c_string_cons cs (Ne.symm h.1), ih h.2]

theorem c_string_append {u : CString} (v : CString) (h : '\x00' ∉ u) :
    c_string (u ++ v) = u ++ c_string v := by
  induction u with
  | nil => rfl
  | cons c cs ih =>
    simp only [List.mem_cons, not_or] at h
    rw [List.cons_append, c_string_cons _ (Ne.symm h.1), ih h.2, List.cons_append]

theorem skip_blanks_length_le (p : CString) : (skip_blanks p).length ≤ p.length := by
  induction p with
  | nil => simp [skip_blanks]
  | cons c cs ih =>
    simp only [skip_blanks]
    split
    · simp only [List.length_cons]; omega
    · simp

theorem skip_blanks_deref (p : CString) :
    deref (skip_blanks p) ≠ ' ' ∧ deref (skip_blanks p) ≠ '\t' := by
  induction p with
  | nil => simp [skip_blanks, deref]
  | cons c cs ih =>
    simp only [skip_blanks]
    split
    · exact ih
    · rename_i h
      simp only [not_or] at h
      simpa [deref] using h

theorem spec_skip_blanks (p : CString) :
    spec_tokens (c_string (skip_blanks p)) = spec_tokens (c_string p) := by
  induction p with
  | nil => rfl
  | cons c cs ih =>
    simp only [skip_blanks]
    split
    · rename_i h
      have hc : c ≠ '\x00' := by rcases h with h | h <;> (rw [h]; decide)
      have hb : is_blank c = true := by rcases h with h | h <;> (rw [h]; decide)
      rw [ih, c_string_cons cs hc]
      simp [spec_tokens, spec_tokens_from, hb]
    · rfl

theorem scan_word_append (q : CString) :
    c_string q = (scan_word q).1 ++ c_string (scan_word q).2 := by
  induction q with
  | nil => rfl
  | cons c cs ih =>
    simp only [scan_word]
    split
    · rename_i h
      rw [c_string_cons cs h.2.2.2.2, ih]
      rfl
    · rfl

theorem scan_word_length (q : CString) :
    (scan_word q).1.length + (scan_word q).2.length = q.length := by
  induction q with
  | nil => rfl
  | cons c cs ih =>
    simp only [scan_word]
    split
    · simp only [List.cons, List.length_cons]; omega
    · simp

theorem scan_word_chars (q : CString) :
    ∀ c ∈ (scan_word q).1, c ≠ ' ' ∧ c ≠ '\t' ∧ c ≠ '&' ∧ c ≠ '>' ∧ c ≠ '\x00' := by
  induction q with
  | nil => simp [scan_word]
  | cons c cs ih =>
    simp only [scan_word]
    split
    · rename_i h
      intro d hd
      simp only [List.cons, List.mem_cons] at hd
      rcases hd with hd | hd
      · rw [hd]; exact h
      · exact ih d hd
    · simp

theorem scan_word_stop (q : CString) :
    ¬ (deref (scan_word q).2 ≠ ' ' ∧ deref (scan_word q).2 ≠ '\t' ∧
      deref (scan_word q).2 ≠ '&' ∧ deref (scan_word q).2 ≠ '>' ∧
      deref (scan_word q).2 ≠ '\x00') := by
  induction q with
  | nil => simp [scan_word, deref]
  | cons c cs ih =>
    simp only [scan_word]
    split
    · exact ih
    · rename_i h
      simpa [deref] using h

theorem scan_word_ne_nil {q : CString}
    (h : deref q ≠ ' ' ∧ deref q ≠ '\t' ∧ deref q ≠ '&' ∧ deref q ≠ '>' ∧ deref q ≠ '\x00') :
    (scan_word q).1 ≠ [] := by
  cases q with
  | nil => simp [deref] at h
  | cons c cs =>
    simp only [deref_cons] at h
    simp [scan_word, h]

theorem spec_from_word (w : CString) :
    ∀ (run r : CString), (∀ c ∈ w, is_blank c = false ∧ is_marker c = false) →
      spec_tokens_from run (w ++ r) = spec_tokens_from (run ++ w) r := by
  induction w with
  | nil => intro run r _; simp
  | cons c cs ih =>
    intro run r h
    have hc := h c (List.mem_cons_self c cs)
    have hcs : ∀ d ∈ cs, is_blank d = false ∧ is_marker d = false :=
      fun d hd => h d (List.mem_cons_of_mem c hd)
    rw [List.cons_append, spec_tokens_from]
    simp only [hc.1, hc.2, Bool.false_eq_true, if_false]
    rw [ih (run ++ [c]) r hcs, List.append_assoc, List.singleton_append]

theorem spec_from_stop (run s : CString)
    (h : s = [] ∨ is_blank (deref s) = true ∨ is_marker (deref s) = true) :
    spec_tokens_from run s = (if run = [] then [] else [run]) ++ spec_tokens_from [] s := by
  cases s with
  | nil => simp [spec_tokens_from]
  | cons c cs =>
    simp only [deref_cons, reduceCtorEq, false_or] at h
    by_cases hb : is_blank c = true
    · simp [spec_tokens_from, hb]
    · have hm : is_marker c = true := by tauto
      simp [spec_tokens_from, hb, hm]

theorem c_string_stop {r : CString}
    (h : ¬ (deref r ≠ ' ' ∧ deref r ≠ '\t' ∧ deref r ≠ '&' ∧ deref r ≠ '>' ∧
      deref r ≠ '\x00')) :
    c_string r = [] ∨ is_blank (deref (c_string r)) = true ∨
      is_marker (deref (c_string r)) = true := by
  cases r with
  | nil => left; rfl
  | cons c cs =>
    simp only [deref_cons] at h
    by_cases h0 : c = '\x00'
    · left; exact c_string_of_deref (by simpa [deref] using h0)
    · right
      rw [c_string_cons cs h0, deref_cons]
      simp only [is_blank, is_marker, Bool.or_eq_true, decide_eq_true_eq]
      tauto

theorem spec_tokens_word {w r : CString} (hw : w ≠ [])
    (hc : ∀ c ∈ w, c ≠ ' ' ∧ c ≠ '\t' ∧ c ≠ '&' ∧ c ≠ '>' ∧ c ≠ '\x00')
    (hr : r = [] ∨ is_blank (deref r) = true ∨ is_marker (deref r) = true) :
    spec_tokens (w ++ r) = w :: spec_tokens r := by
  have h1 : ∀ c ∈ w, is_blank c = false ∧ is_marker c = false := by
    intro c hcw
    have := hc c hcw
    simp only [is_blank, is_marker, Bool.or_eq_false_iff, decide_eq_false_iff_not]
    tauto
  rw [spec_tokens, spec_from_word w [] r h1, List.nil_append, spec_from_stop w r hr]
  simp [hw, spec_tokens]

theorem spec_tokens_marker {m : Char} (r : CString) (hm : m = '&' ∨ m = '>') :
    spec_tokens (m :: r) = [m] :: spec_tokens r := by
  rcases hm with hm | hm <;> (rw [hm]; simp [spec_tokens, spec_tokens_from, is_blank, is_marker])

theorem int_len_small {n : Nat} (h : n < 2147483647) : int_len n = (n : Int) := by
  unfold int_len
  split <;> omega

theorem word_token_small {w : CString} (h : w.length < 2147483647) : word_token w = some w := by
  have h1 : (0 : Int) ≤ (w.length : Int) ∧ (w.length : Int) + 1 < 2147483648 := by omega
  rw [word_token, int_len_small h, if_pos h1, Int.toNat_ofNat, List.take_length]

theorem word_token_marker (m : Char) : word_token [m] = some [m] :=
  word_token_small (by simp)

theorem word_token_some {w : CString} {k : Int} (hk : int_len w.length = k) (h0 : 0 ≤ k)
    (h1 : k + 1 < 2147483648) : word_token w = some (w.take k.toNat) := by
  rw [word_token, hk, if_pos ⟨h0, h1⟩]

theorem word_token_none {w : CString} {k : Int} (hk : int_len w.length = k)
    (h : k < 0 ∨ 2147483648 ≤ k + 1) : word_token w = none := by
  have hn : ¬ (0 ≤ k ∧ k + 1 < 2147483648) := by omega
  rw [word_token, hk, if_neg hn]

/-- The loop of `tokenize` ends within `strlen + 1` iterations, whatever fuel
beyond that it is given, and gives what the code makes of the reference token
sequence of the C string in the buffer. -/
theorem tokenize_loop_eq :
    ∀ (fuel : Nat) (p : CString) (count : Nat), p.length < fuel →
      tokenize_loop fuel p count = some (stored_tokens (spec_tokens (c_string p)) count) := by
  intro fuel
  induction fuel with
  | zero => intro p count h; omega
  | succ fuel ih =>
    intro p count hp
    rw [tokenize_loop]
    by_cases h0 : deref p = '\x00'
    · simp [h0, c_string_of_deref h0, spec_tokens, spec_tokens_from, stored_tokens]
    · rw [if_neg h0]
      simp only
      rw [← spec_skip_blanks p]
      have hlen := skip_blanks_length_le p
      have hnb := skip_blanks_deref p
      generalize skip_blanks p = q at hlen hnb
      by_cases h1 : deref q = '\x00'
      · simp [h1, c_string_of_deref h1, spec_tokens, spec_tokens_from, stored_tokens]
      · rw [if_neg h1]
        by_cases h2 : deref q = '&' ∨ deref q = '>'
        · rw [if_pos h2]
          cases q with
          | nil => exact absurd rfl h1
          | cons m q1 =>
            simp only [deref_cons] at h1 h2
            simp only [List.length_cons] at hlen
            rw [List.tail_cons, deref_cons, c_string_cons q1 h1, spec_tokens_marker _ h2,
              stored_tokens, word_token_marker]
            by_cases hc : count < MAX_TOKENS
            · rw [if_pos hc, if_pos hc, ih q1 (count + 1) (by omega)]
              rfl
            · rw [if_neg hc, if_neg hc]
        · rw [if_neg h2]
          have hw : deref q ≠ ' ' ∧ deref q ≠ '\t' ∧ deref q ≠ '&' ∧ deref q ≠ '>' ∧
              deref q ≠ '\x00' := by
            simp only [not_or] at h2
            exact ⟨hnb.1, hnb.2, h2.1, h2.2, h1⟩
          have hne := scan_word_ne_nil hw
          have hl := scan_word_length q
          have hpos : 0 < (scan_word q).1.length := List.length_pos.mpr hne
          rw [scan_word_append q,
            spec_tokens_word hne (scan_word_chars q) (c_string_stop (scan_word_stop q)),
            stored_tokens]
          by_cases hc : count < MAX_TOKENS
          · rw [if_pos hc, if_pos hc]
            cases word_token (scan_word q).1 with
            | none => rfl
            | some token =>
              simp only
              rw [ih (scan_word q).2 (count + 1) (by omega)]
              rfl
          · rw [if_neg hc, if_neg hc]

theorem tokenize_eq (line : CString) :
    tokenize line = stored_tokens (spec_tokens (c_string line)) 0 := by
  rw [tokenize, tokenize_loop_eq _ line 0 (Nat.lt_succ_self _)]
  rfl

theorem stored_tokens_all (runs : List CString) :
    ∀ count : Nat, (∀ w ∈ runs, w.length < 2147483647) → count + runs.length ≤ MAX_TOKENS →
      stored_tokens runs count = some runs := by
  induction runs with
  | nil => intro count _ _; rfl
  | cons w ws ih =>
    intro count hw hc
    simp only [List.length_cons] at hc
    have h1 : count < MAX_TOKENS := by omega
    rw [stored_tokens, if_pos h1, word_token_small (hw w (List.mem_cons_self w ws)),
      ih (count + 1) (fun v hv => hw v (List.mem_cons_of_mem w hv)) (by omega)]
    rfl

/-- Within the limits of the code, `tokenize` returns the reference token
sequence: for a C string whose reference sequence has at most `MAX_TOKENS`
tokens, each shorter than `INT_MAX`. -/
theorem tokenize_within_limits {line : CString} (h : '\x00' ∉ line)
    (hcount : (spec_tokens line).length ≤ MAX_TOKENS)
    (hlen : ∀ w ∈ spec_tokens line, w.length < 2147483647) :
    tokenize line = some (spec_tokens line) := by
  rw [tokenize_eq, c_string_of_no_nul h]
  exact stored_tokens_all _ 0 hlen (by omega)

theorem spec_from_blanks (b : CString) (hb : ∀ c ∈ b, c = ' ' ∨ c = '\t') :
    ∀ run : CString, spec_tokens_from run b = spec_tokens_from run [] := by
  induction b with
  | nil => intro run; rfl
  | cons c cs ih =>
    intro run
    have hc : is_blank c = true := by
      rcases hb c (List.mem_cons_self c cs) with h | h <;> (rw [h]; decide)
    have h1 : spec_tokens_from run (c :: cs) =
        (if run = [] then [] else [run]) ++ spec_tokens_from [] cs := by
      simp [spec_tokens_from, hc]
    rw [h1, ih (fun d hd => hb d (List.mem_cons_of_mem c hd)) []]
    simp [spec_tokens_from]

theorem no_nul_of_blanks {b : CString} (hb : ∀ c ∈ b, c = ' ' ∨ c = '\t') : '\x00' ∉ b := by
  intro h
  rcases hb _ h with h | h <;> exact absurd h (by decide)

theorem tokenize_blanks {line : CString} (h : ∀ c ∈ line, c = ' ' ∨ c = '\t') :
    tokenize line = some [] := by
  rw [tokenize_eq, c_string_of_no_nul (no_nul_of_blanks h), spec_tokens,
    spec_from_blanks line h]
  rfl

theorem spec_tokens_replicate (n : Nat) (hn : 0 < n) :
    spec_tokens (List.replicate n 'a') = [List.replicate n 'a'] := by
  have hne : List.replicate n 'a' ≠ [] := by
    intro e
    have := congrArg List.length e
    simp only [List.length_replicate, List.length_nil] at this
    omega
  have hc : ∀ c ∈ List.replicate n 'a',
      c ≠ ' ' ∧ c ≠ '\t' ∧ c ≠ '&' ∧ c ≠ '>' ∧ c ≠ '\x00' := by
    intro c hmem
    rw [(List.mem_replicate.mp hmem).2]
    decide
  have := @spec_tokens_word (List.replicate n 'a') [] hne hc (Or.inl rfl)
  rw [List.append_nil] at this
  rw [this]
  rfl

/-- A line that is one word of `n` letters `a`: `tokenize` gives what
`word_token` makes of the word. -/
theorem tokenize_one_word (n : Nat) (hn : 0 < n) :
    tokenize (List.replicate n 'a') =
      (word_token (List.replicate n 'a')).map (fun token => [token]) := by
  have h0 : '\x00' ∉ List.replicate n 'a' := by
    intro hmem
    exact absurd (List.mem_replicate.mp hmem).2 (by decide)
  have hcap : 0 < MAX_TOKENS := by decide
  rw [tokenize_eq, c_string_of_no_nul h0, spec_tokens_replicate n hn, stored_tokens, if_pos hcap]
  cases word_token (List.replicate n 'a') <;> rfl

/-! ### Claims about the tokenizer -/

set_option maxRecDepth 100000 in
/-- C1, what the code does: a word of 2^32 characters is stored as the empty
token, since `int len` holds its length reduced to 32 bits, which is 0; a word
of 2^31 - 1 characters cannot be stored at all (`len + 1` overflows), and on a
line of 101 tokens the write of the last one falls outside the 100 entries
allocated. -/
theorem tokenize_outside_limits :
    tokenize (List.replicate 4294967296 'a') = some [[]] ∧
      tokenize (List.replicate 2147483647 'a') = none ∧
      tokenize (List.replicate 101 '&') = none := by
  refine ⟨?_, ?_, by decide⟩
  · rw [tokenize_one_word 4294967296 (by norm_num),
      @word_token_some _ 0 (by rw [List.length_replicate]; rfl) (by norm_num) (by norm_num),
      Int.toNat_zero, List.take_zero]
    rfl
  · rw [tokenize_one_word 2147483647 (by norm_num),
      @word_token_none _ 2147483647 (by rw [List.length_replicate]; rfl) (by norm_num)]
    rfl


set_option maxRecDepth 100000 in
/-- C2, what the code does: on a line of 101 `&` the reference sequence has 101
tokens but the write of the last one falls outside the 100 entries allocated;
a word of 2^32 + 3 characters is stored as its first 3 characters, since
`int len` holds the length reduced to 32 bits, while the reference token is
the whole word.  The three examples of the claim do hold. -/
theorem tokenize_differs_from_reference :
    tokenize (List.replicate 101 '&') = none ∧
      (spec_tokens (List.replicate 101 '&')).length = 101 ∧
      tokenize (List.replicate 4294967299 'a') = some ["aaa".toList] ∧
      spec_tokens (List.replicate 4294967299 'a') = [List.replicate 4294967299 'a'] ∧
      tokenize "ls  -la".toList = some ["ls".toList, "-la".toList] ∧
      tokenize "a>b".toList = some ["a".toList, ">".toList, "b".toList] ∧
      tokenize "".toList = some [] := by
  refine ⟨by decide, by decide, ?_, spec_tokens_replicate 4294967299 (by norm_num), by decide,
    by decide, by decide⟩
  have hmin : min 3 4294967299 = 3 := by norm_num
  rw [tokenize_one_word 4294967299 (by norm_num),
    @word_token_some _ 3 (by rw [List.length_replicate]; rfl) (by norm_num) (by norm_num),
    List.take_replicate]
  show some [List.replicate (min 3 4294967299) 'a'] = some ["aaa".toList]
  rw [hmin]
  rfl

set_option maxRecDepth 100000 in
/-- C3, what the code does: with `u` and `v` both 50 `&` and the marker `&`,
`tokenize u` and `tokenize v` return 50 tokens each, so the right-hand side of
the equation has 101 tokens, but on `u ++ m ++ v` the write of the last token
falls outside the 100 entries allocated and `tokenize` returns nothing
defined. -/
theorem tokenize_split_overflows :
    tokenize (List.replicate 50 '&') = some (List.replicate 50 AMP) ∧
      tokenize (List.replicate 50 '&' ++ '&' :: List.replicate 50 '&') = none := by
  decide

/-- C4: for every line of spaces and tabs only (the empty line included)
`tokenize` returns no token, and `parse_and_execute` returns with the state of
the shell as it was: no child launched, the path registry and the working
directory unchanged, no system call made and so no error message written. -/
theorem blank_line_no_effect (os : OS) (st : Shell) (line : CString)
    (h : ∀ c ∈ line, c = ' ' ∨ c = '\t') :
    tokenize line = some [] ∧
    parse_and_execute os st line = (st, some ()) ∧
    (parse_and_execute os st line).1.children = st.children ∧
    (parse_and_execute os st line).1.path_dirs = st.path_dirs ∧
    (parse_and_execute os st line).1.cwd = st.cwd ∧
    (parse_and_execute os st line).1.events = st.events := by
  have ht := tokenize_blanks h
  have hp : parse_and_execute os st line = (st, some ()) := by
    simp [parse_and_execute, ht]
  refine ⟨ht, hp, ?_, ?_, ?_, ?_⟩ <;> rw [hp]

theorem blank_line_no_effect_witness :
    tokenize " \t ".toList = some [] ∧
      parse_and_execute sample_os (init_path "/home".toList) " \t ".toList =
        (init_path "/home".toList, some ()) :=
  ⟨(blank_line_no_effect sample_os (init_path "/home".toList) " \t ".toList (by decide)).1,
   (blank_line_no_effect sample_os (init_path "/home".toList) " \t ".toList (by decide)).2.1⟩


/-! ## The command splitter -/

theorem split_inv_amp {tokens : List CString} {n i start : Nat}
    (h : split_inv tokens (n + 1) i start) : split_inv tokens n (i + 1) (i + 1) :=
  ⟨by have := h.1; omega, le_refl _, fun k h1 h2 => by omega⟩

theorem split_inv_word {tokens : List CString} {n i start : Nat}
    (h : split_inv tokens (n + 1) i start) (hi : ¬ tokens[i]? = some AMP) :
    split_inv tokens n (i + 1) start := by
  refine ⟨by have := h.1; omega, by have := h.2.1; omega, fun k h1 h2 => ?_⟩
  by_cases hk : k = i
  · rw [hk]; exact hi
  · exact h.2.2 k h1 (by omega)

theorem split_inv_init (tokens : List CString) : split_inv tokens tokens.length 0 0 :=
  ⟨by omega, le_refl _, fun k _ h => by omega⟩

theorem slice_length (tokens : List CString) {start i : Nat} (h : i ≤ tokens.length) :
    (slice tokens (start, i - start)).length = i - start := by
  simp only [slice, List.length_take, List.length_drop]
  omega

theorem slice_succ (tokens : List CString) {start i : Nat} (h1 : start ≤ i)
    (h2 : i < tokens.length) :
    slice tokens (start, i + 1 - start) = slice tokens (start, i - start) ++ [tokens[i]] := by
  have e : i + 1 - start = (i - start) + 1 := by omega
  simp only [slice, e]
  rw [List.take_succ, List.getElem?_drop]
  have e2 : start + (i - start) = i := by omega
  rw [e2, List.getElem?_eq_getElem h2]
  rfl

theorem slice_eq_nil_iff (tokens : List CString) {start i : Nat} (h : i ≤ tokens.length) :
    slice tokens (start, i - start) = [] ↔ ¬ (i - start > 0) := by
  rw [← List.length_eq_zero, slice_length tokens h]
  omega

theorem option_map_cons_map (x : Option (List (Nat × Nat))) (r : Nat × Nat)
    (f : Nat × Nat → List CString) :
    (x.map (List.cons r)).map (List.map f) = (x.map (List.map f)).map (List.cons (f r)) := by
  cases x <;> rfl

/-- The loop of `split_commands` stores the segments of the tokens left, as
`segments_from` lists them, when they fit the entries of `*commands` that are
left, and leaves the array otherwise. -/
theorem split_loop_eq_segments (tokens : List CString) :
    ∀ n i start count, split_inv tokens n i start → count ≤ MAX_COMMANDS →
      (split_loop tokens n i start count).map (List.map (slice tokens)) =
        (if count + (segments_from (slice tokens (start, i - start)) (tokens.drop i)).length ≤
            MAX_COMMANDS then
          some (segments_from (slice tokens (start, i - start)) (tokens.drop i))
        else none) := by
  intro n
  induction n with
  | zero =>
    intro i start count h hcount
    obtain ⟨h1, h2, _⟩ := h
    have hnil := @slice_eq_nil_iff tokens start i (Nat.le_of_eq (by omega : i = tokens.length))
    rw [List.drop_of_length_le (by omega), segments_from]
    simp only [split_loop]
    by_cases hpos : i - start > 0
    · have hne : slice tokens (start, i - start) ≠ [] := fun e => (hnil.mp e) hpos
      rw [if_pos hpos, if_neg hne]
      by_cases hc : count < MAX_COMMANDS
      · have hc2 : count + [slice tokens (start, i - start)].length ≤ MAX_COMMANDS := by
          simp only [List.length_singleton]; omega
        rw [if_pos hc, if_pos hc2]
        rfl
      · have hc2 : ¬ count + [slice tokens (start, i - start)].length ≤ MAX_COMMANDS := by
          simp only [List.length_singleton]; omega
        rw [if_neg hc, if_neg hc2]
        rfl
    · have he : slice tokens (start, i - start) = [] := hnil.mpr hpos
      have hc2 : count + ([] : List (List CString)).length ≤ MAX_COMMANDS := by
        simp only [List.length_nil]; omega
      rw [if_neg hpos, if_pos he, if_pos hc2]
      rfl
  | succ n ih =>
    intro i start count h hcount
    have hi : i < tokens.length := by have := h.1; omega
    have hnil := @slice_eq_nil_iff tokens start i (Nat.le_of_lt hi)
    rw [List.drop_eq_getElem_cons hi, segments_from]
    simp only [split_loop]
    by_cases hamp : tokens[i]? = some AMP
    · have hti : tokens[i] = AMP := by
        rw [List.getElem?_eq_getElem hi] at hamp
        exact Option.some.inj hamp
      have h0 : slice tokens (i + 1, i + 1 - (i + 1)) = [] := by simp [slice]
      rw [if_pos hamp, if_pos hti]
      by_cases hpos : i - start > 0
      · have hne : slice tokens (start, i - start) ≠ [] := fun e => (hnil.mp e) hpos
        rw [if_pos hpos, if_neg hne]
        by_cases hc : count < MAX_COMMANDS
        · rw [if_pos hc, option_map_cons_map,
            ih (i + 1) (i + 1) (count + 1) (split_inv_amp h) (by omega), h0]
          simp only [List.singleton_append, List.length_cons]
          by_cases hc3 : count + 1 + (segments_from [] (List.drop (i + 1) tokens)).length ≤
              MAX_COMMANDS
          · have hc4 : count + ((segments_from [] (List.drop (i + 1) tokens)).length + 1) ≤
                MAX_COMMANDS := by omega
            rw [if_pos hc3, if_pos hc4]
            rfl
          · have hc4 : ¬ count + ((segments_from [] (List.drop (i + 1) tokens)).length + 1) ≤
                MAX_COMMANDS := by omega
            rw [if_neg hc3, if_neg hc4]
            rfl
        · have hc4 : ¬ count + ([slice tokens (start, i - start)] ++
              segments_from [] (List.drop (i + 1) tokens)).length ≤ MAX_COMMANDS := by
            simp only [List.singleton_append, List.length_cons]; omega
          rw [if_neg hc, if_neg hc4]
          rfl
      · have he : slice tokens (start, i - start) = [] := hnil.mpr hpos
        rw [if_neg hpos, if_pos he, ih (i + 1) (i + 1) count (split_inv_amp h) hcount, h0]
        rfl
    · have hti : ¬ tokens[i] = AMP := by
        intro e
        apply hamp
        rw [List.getElem?_eq_getElem hi, e]
      rw [if_neg hamp, if_neg hti, ih (i + 1) start count (split_inv_word h hamp) hcount,
        slice_succ tokens h.2.1 hi]

theorem split_commands_eq_segments (tokens : List CString) :
    split_commands tokens =
      (if (segments_from [] tokens).length ≤ MAX_COMMANDS then some (segments_from [] tokens)
        else none) := by
  have := split_loop_eq_segments tokens tokens.length 0 0 0 (split_inv_init tokens)
    (Nat.zero_le _)
  simpa [split_commands, split_ranges, slice] using this

theorem split_commands_some {tokens : List CString} {commands : List (List CString)}
    (h : split_commands tokens = some commands) : commands = segments_from [] tokens := by
  rw [split_commands_eq_segments] at h
  split at h
  · exact (Option.some.inj h).symm
  · exact absurd h (by simp)

theorem segments_from_append (s : List CString) (hs : AMP ∉ s) :
    ∀ (cur rest : List CString),
      segments_from cur (s ++ rest) = segments_from (cur ++ s) rest := by
  induction s with
  | nil => intro cur rest; simp
  | cons t ts ih =>
    intro cur rest
    simp only [List.mem_cons, not_or] at hs
    rw [List.cons_append, segments_from, if_neg (Ne.symm hs.1), ih hs.2]
    simp

theorem segments_from_no_amp (tokens : List CString) :
    ∀ cur : List CString, AMP ∉ cur → ∀ seg ∈ segments_from cur tokens, AMP ∉ seg := by
  induction tokens with
  | nil =>
    intro cur hcur seg hseg
    rw [segments_from] at hseg
    split at hseg
    · simp at hseg
    · rw [List.mem_singleton.mp hseg]; exact hcur
  | cons t ts ih =>
    intro cur hcur seg hseg
    rw [segments_from] at hseg
    split at hseg
    · rcases List.mem_append.mp hseg with h | h
      · split at h
        · simp at h
        · rw [List.mem_singleton.mp h]; exact hcur
      · exact ih [] (by simp) seg h
    · rename_i hne
      refine ih (cur ++ [t]) ?_ seg hseg
      simp only [List.mem_append, List.mem_singleton, not_or]
      exact ⟨hcur, fun e => hne e.symm⟩

theorem split_commands_no_amp {tokens : List CString} {commands : List (List CString)}
    (h : split_commands tokens = some commands) : ∀ seg ∈ commands, AMP ∉ seg := by
  rw [split_commands_some h]
  exact segments_from_no_amp tokens [] (by simp)

theorem split_commands_two {seg1 seg2 : List CString} (h1 : AMP ∉ seg1) (h2 : AMP ∉ seg2)
    (hn1 : seg1 ≠ []) (hn2 : seg2 ≠ []) :
    split_commands (seg1 ++ AMP :: seg2) = some [seg1, seg2] := by
  have hs : segments_from [] (seg1 ++ AMP :: seg2) = [seg1, seg2] := by
    rw [segments_from_append seg1 h1, List.nil_append, segments_from]
    have := segments_from_append seg2 h2 [] []
    simp only [List.append_nil, List.nil_append] at this
    rw [this, segments_from]
    simp [hn1, hn2]
  have hcap : [seg1, seg2].length ≤ MAX_COMMANDS := by simp [MAX_COMMANDS]
  rw [split_commands_eq_segments, hs, if_pos hcap]

/-- C5, what the code does: the 21 tokens of the line `a&a&..&a` with 11 words
are within the token array and make 11 segments, but `*commands` has 10
entries: the write of the last segment falls outside it and `split_commands`
returns nothing defined.  With at most 10 segments it stores them as claimed. -/
theorem split_commands_overflows :
    tokenize ((List.replicate 10 "a&".toList).flatten ++ "a".toList) =
        some (List.intersperse AMP (List.replicate 11 "a".toList)) ∧
      (List.intersperse AMP (List.replicate 11 "a".toList)).length = 21 ∧
      (segments_from [] (List.intersperse AMP (List.replicate 11 "a".toList))).length = 11 ∧
      split_commands (List.intersperse AMP (List.replicate 11 "a".toList)) = none ∧
      split_commands (List.intersperse AMP (List.replicate 10 "a".toList)) =
        some (List.replicate 10 ["a".toList]) ∧
      (tokenize "& a b & & c > d &".toList).bind split_commands =
        some [["a".toList, "b".toList], ["c".toList, ">".toList, "d".toList]] := by
  decide


/-! ## The branches of `execute_single_command` -/

theorem execute_exit_args (os : OS) (st : Shell) (a : CString) (rest : List CString)
    (r : Bool) (f : Option CString) (par : Bool) :
    execute_single_command os st (EXIT :: a :: rest) r f par =
      (write_error (st.emit (.call (EXIT :: a :: rest) r f)), some 0) := by
  simp [execute_single_command]

theorem execute_exit (os : OS) (st : Shell) (r : Bool) (f : Option CString) (par : Bool) :
    execute_single_command os st [EXIT] r f par =
      ((st.emit (.call [EXIT] r f)).emit (.exit 0), none) := by
  simp [execute_single_command]

theorem execute_cd_arity (os : OS) (st : Shell) (rest : List CString) (r : Bool)
    (f : Option CString) (par : Bool) (h : rest.length ≠ 1) :
    execute_single_command os st (CD :: rest) r f par =
      (write_error (st.emit (.call (CD :: rest) r f)), some 0) := by
  have h1 : CD ≠ EXIT := by decide
  simp [execute_single_command, h1, h]

theorem execute_cd_one (os : OS) (st : Shell) (d : CString) (r : Bool)
    (f : Option CString) (par : Bool) :
    execute_single_command os st [CD, d] r f par =
      (match os.chdir st.cwd d with
        | some c => ({ (st.emit (.call [CD, d] r f)).emit (.chdir d true) with cwd := c }, some 0)
        | none => (write_error ((st.emit (.call [CD, d] r f)).emit (.chdir d false)), some 0)) := by
  have h1 : CD ≠ EXIT := by decide
  simp only [execute_single_command, h1, if_false, if_true, List.length_cons, List.length_nil,
    ne_eq, not_true_eq_false, List.headD_cons]
  rfl

theorem execute_path (os : OS) (st : Shell) (ds : List CString) (redirect : Bool)
    (file : Option CString) (par : Bool) (h : ds.length ≤ MAX_PATH_DIRS) :
    execute_single_command os st (PATH :: ds) redirect file par =
      ({ st.emit (.call (PATH :: ds) redirect file) with path_dirs := ds }, some 0) := by
  have h1 : PATH ≠ EXIT := by decide
  have h2 : PATH ≠ CD := by decide
  simp [execute_single_command, h1, h2, set_path, h]

theorem execute_path_overflow (os : OS) (st : Shell) (ds : List CString) (redirect : Bool)
    (file : Option CString) (par : Bool) (h : MAX_PATH_DIRS < ds.length) :
    execute_single_command os st (PATH :: ds) redirect file par =
      ((st.emit (.call (PATH :: ds) redirect file)).emit .fault, none) := by
  have h1 : PATH ≠ EXIT := by decide
  have h2 : PATH ≠ CD := by decide
  have h3 : ¬ ds.length ≤ MAX_PATH_DIRS := by omega
  simp [execute_single_command, h1, h2, set_path, h3]

theorem execute_external (os : OS) (st : Shell) (cmd : CString) (rest : List CString)
    (r : Bool) (f : Option CString) (par : Bool) (h1 : cmd ≠ EXIT) (h2 : cmd ≠ CD)
    (h3 : cmd ≠ PATH) :
    execute_single_command os st (cmd :: rest) r f par =
      (match os.fork (st.events ++ [.call (cmd :: rest) r f]) with
        | none => (write_error ((st.emit (.call (cmd :: rest) r f)).emit (.fork (-1))), some (-1))
        | some k =>
          ({ (st.emit (.call (cmd :: rest) r f)).emit (.fork (k + 1)) with
              children := st.children ++ [⟨k + 1, child_run os st.path_dirs (cmd :: rest) r f⟩] },
            some (k + 1))) := by
  simp only [execute_single_command, h1, h2, h3, if_false]
  rfl

/-! ## Redirection parsing and dispatch -/

theorem find_redirect_none (ts : List CString) :
    ∀ j : Nat, GT ∉ ts → find_redirect ts j = -1 := by
  induction ts with
  | nil => intro j _; rfl
  | cons t ts ih =>
    intro j h
    simp only [List.mem_cons, not_or] at h
    rw [find_redirect, if_neg (Ne.symm h.1), ih (j + 1) h.2]

theorem find_redirect_first (pre : List CString) (tail : List CString) :
    ∀ j : Nat, GT ∉ pre → find_redirect (pre ++ GT :: tail) j = ((j + pre.length : Nat) : Int) := by
  induction pre with
  | nil => intro j _; simp [find_redirect]
  | cons t ts ih =>
    intro j h
    simp only [List.mem_cons, not_or] at h
    rw [List.cons_append, find_redirect, if_neg (Ne.symm h.1), ih (j + 1) h.2,
      List.length_cons]
    congr 1
    omega

theorem split_at_first_gt (l : List CString) (h : GT ∈ l) :
    ∃ pre tail, l = pre ++ GT :: tail ∧ GT ∉ pre := by
  induction l with
  | nil => simp at h
  | cons t ts ih =>
    by_cases ht : t = GT
    · exact ⟨[], ts, by simp [ht], by simp⟩
    · have hts : GT ∈ ts := by
        rcases List.mem_cons.mp h with h | h
        · exact absurd h.symm ht
        · exact h
      obtain ⟨pre, tail, he, hp⟩ := ih hts
      refine ⟨t :: pre, tail, by simp [he], ?_⟩
      simp only [List.mem_cons, not_or]
      exact ⟨fun e => ht e.symm, hp⟩

theorem parse_redirection_none {command : List CString} (h : GT ∉ command) :
    parse_redirection command = .parsed command false none := by
  simp [parse_redirection, find_redirect_none command 0 h]

theorem parse_redirection_last {pre : List CString} (h : GT ∉ pre) :
    parse_redirection (pre ++ [GT]) = .malformed := by
  simp [parse_redirection, find_redirect_first pre [] 0 h]

theorem parse_redirection_many {pre : List CString} (a b : CString) (tail : List CString)
    (h : GT ∉ pre) : parse_redirection (pre ++ GT :: a :: b :: tail) = .malformed := by
  have h1 : ¬ ((pre.length : Int) = -1) := by omega
  have h2 : ¬ ((pre.length : Int) = ((pre.length + (tail.length + 1 + 1 + 1) : Nat) : Int) - 1) := by
    omega
  have h3 : ((pre.length + (tail.length + 1 + 1 + 1) : Nat) : Int) - (pre.length : Int) > 2 := by
    omega
  simp only [parse_redirection, find_redirect_first pre _ 0 h, Nat.zero_add, List.length_append,
    List.length_cons, ne_eq, h1, not_false_eq_true, if_true, h2, if_false, h3]

theorem parse_redirection_one {pre : List CString} (file : CString) (h : GT ∉ pre) :
    parse_redirection (pre ++ [GT, file]) = .parsed pre true (some file) := by
  have h1 : ¬ ((pre.length : Int) = -1) := by omega
  have h2 : ¬ ((pre.length : Int) = ((pre.length + (0 + 1 + 1) : Nat) : Int) - 1) := by omega
  have h3 : ¬ (((pre.length + (0 + 1 + 1) : Nat) : Int) - (pre.length : Int) > 2) := by omega
  have h4 : ((pre.length : Int) + 1).toNat = pre.length + 1 := by omega
  have h5 : (pre ++ [GT, file])[pre.length + 1]? = some file := by
    rw [List.getElem?_append_right (by omega)]
    simp
  simp only [parse_redirection, find_redirect_first pre _ 0 h, Nat.zero_add, List.length_append,
    List.length_cons, List.length_nil, ne_eq, h1, not_false_eq_true, if_true, h2, if_false, h3,
    Int.toNat_ofNat, List.take_left', h4, h5]

theorem child_run_events (os : OS) (dirs : List CString) (args : List CString)
    (redirect : Bool) (file : Option CString) :
    ∀ e ∈ child_run os dirs args redirect file,
      (∀ path argv, e = .execv path argv → argv = args) ∧
      (∀ f ok, e = .openFile f ok → redirect = true ∧ file = some f) := by
  intro e he
  cases redirect <;> cases file <;>
    simp only [child_run, execute_redirection, debug_print] at he
  all_goals (split at he <;> try split at he)
  all_goals simp at he
  all_goals aesop

theorem execute_single_command_children (os : OS) (st : Shell) (args : List CString)
    (redirect : Bool) (file : Option CString) (par : Bool) :
    ∀ child ∈ (execute_single_command os st args redirect file par).1.children,
      child ∈ st.children ∨ child.events = child_run os st.path_dirs args redirect file := by
  intro child hc
  cases args with
  | nil => left; simpa [execute_single_command, Shell.emit] using hc
  | cons cmd rest =>
    by_cases h1 : cmd = EXIT
    · subst h1
      cases rest with
      | nil =>
        rw [execute_exit] at hc
        left; simpa [Shell.emit] using hc
      | cons a rest =>
        rw [execute_exit_args] at hc
        left; simpa [write_error, Shell.emit] using hc
    · by_cases h2 : cmd = CD
      · subst h2
        by_cases hl : rest.length = 1
        · obtain ⟨d, hd⟩ := List.length_eq_one.mp hl
          subst hd
          rw [execute_cd_one] at hc
          cases hch : os.chdir st.cwd d with
          | none =>
            rw [hch] at hc
            left; simpa [write_error, Shell.emit] using hc
          | some c =>
            rw [hch] at hc
            left; simpa [Shell.emit] using hc
        · rw [execute_cd_arity os st rest redirect file par hl] at hc
          left; simpa [write_error, Shell.emit] using hc
      · by_cases h3 : cmd = PATH
        · subst h3
          by_cases hp : rest.length ≤ MAX_PATH_DIRS
          · rw [execute_path os st rest redirect file par hp] at hc
            left; simpa [Shell.emit] using hc
          · rw [execute_path_overflow os st rest redirect file par (by omega)] at hc
            left; simpa [Shell.emit] using hc
        · rw [execute_external os st cmd rest redirect file par h1 h2 h3] at hc
          cases hf : os.fork (st.events ++ [.call (cmd :: rest) redirect file]) with
          | none =>
            rw [hf] at hc
            left; simpa [write_error, Shell.emit] using hc
          | some k =>
            rw [hf] at hc
            simp only [Shell.emit, List.mem_append, List.mem_singleton] at hc
            rcases hc with hc | hc
            · left; exact hc
            · right; rw [hc]

theorem execute_single_command_events (os : OS) (st : Shell) (args : List CString)
    (redirect : Bool) (file : Option CString) (par : Bool) :
    ∃ new, (execute_single_command os st args redirect file par).1.events =
        st.events ++ .call args redirect file :: new ∧
      ∀ a r f, Event.call a r f ∉ new := by
  cases args with
  | nil => exact ⟨[], by simp [execute_single_command, Shell.emit], by simp⟩
  | cons cmd rest =>
    by_cases h1 : cmd = EXIT
    · subst h1
      cases rest with
      | nil =>
        rw [execute_exit]
        exact ⟨[.exit 0], by simp [Shell.emit], by simp⟩
      | cons a rest =>
        rw [execute_exit_args]
        exact ⟨[.write 2 ERROR_MSG], by simp [write_error, Shell.emit], by simp⟩
    · by_cases h2 : cmd = CD
      · subst h2
        by_cases hl : rest.length = 1
        · obtain ⟨d, hd⟩ := List.length_eq_one.mp hl
          subst hd
          rw [execute_cd_one]
          cases os.chdir st.cwd d with
          | none =>
            exact ⟨[.chdir d false, .write 2 ERROR_MSG], by simp [write_error, Shell.emit],
              by simp⟩
          | some c => exact ⟨[.chdir d true], by simp [Shell.emit], by simp⟩
        · rw [execute_cd_arity os st rest redirect file par hl]
          exact ⟨[.write 2 ERROR_MSG], by simp [write_error, Shell.emit], by simp⟩
      · by_cases h3 : cmd = PATH
        · subst h3
          by_cases hp : rest.length ≤ MAX_PATH_DIRS
          · rw [execute_path os st rest redirect file par hp]
            exact ⟨[], by simp [Shell.emit], by simp⟩
          · rw [execute_path_overflow os st rest redirect file par (by omega)]
            exact ⟨[.fault], by simp [Shell.emit], by simp⟩
        · rw [execute_external os st cmd rest redirect file par h1 h2 h3]
          cases os.fork (st.events ++ [.call (cmd :: rest) redirect file]) with
          | none =>
            exact ⟨[.fork (-1), .write 2 ERROR_MSG], by simp [write_error, Shell.emit],
              by simp⟩
          | some k => exact ⟨[.fork (k + 1)], by simp [Shell.emit], by simp⟩

theorem run_command_parsed (os : OS) (par : Bool) (st : Shell) (pids : List Int)
    {command : List CString} {cmd : CString} {rest : List CString} {r : Bool}
    {f : Option CString} (hp : parse_redirection command = .parsed (cmd :: rest) r f) :
    run_command os par command st pids =
      record_pid pids (execute_single_command os st (cmd :: rest) r f par) := by
  simp only [run_command, hp, List.length_cons, Nat.add_one_ne_zero, if_false]

theorem run_command_none {os : OS} {par : Bool} {command : List CString} (st : Shell)
    (pids : List Int) (h : GT ∉ command) (hne : command ≠ []) :
    run_command os par command st pids =
      record_pid pids (execute_single_command os st command false none par) := by
  have hl : command.length ≠ 0 := fun e => hne (List.length_eq_zero.mp e)
  rw [run_command, parse_redirection_none h]
  simp only [hl, if_false]

theorem run_command_one {os : OS} {par : Bool} {pre : List CString} (file : CString)
    (st : Shell) (pids : List Int) (h : GT ∉ pre) (hne : pre ≠ []) :
    run_command os par (pre ++ [GT, file]) st pids =
      record_pid pids (execute_single_command os st pre true (some file) par) := by
  have hl : pre.length ≠ 0 := fun e => hne (List.length_eq_zero.mp e)
  rw [run_command, parse_redirection_one file h]
  simp only [hl, if_false]

theorem run_command_last {os : OS} {par : Bool} {pre : List CString} (st : Shell)
    (pids : List Int) (h : GT ∉ pre) :
    run_command os par (pre ++ [GT]) st pids = (write_error st, some pids) := by
  rw [run_command, parse_redirection_last h]

theorem run_command_many {os : OS} {par : Bool} {pre : List CString} (a b : CString)
    (tail : List CString) (st : Shell) (pids : List Int) (h : GT ∉ pre) :
    run_command os par (pre ++ GT :: a :: b :: tail) st pids = (write_error st, some pids) := by
  rw [run_command, parse_redirection_many a b tail h]

theorem run_command_empty {os : OS} {par : Bool} (file : CString) (st : Shell)
    (pids : List Int) :
    run_command os par [GT, file] st pids = (write_error st, some pids) := by
  have := @parse_redirection_one [] file (by simp)
  simp only [List.nil_append] at this
  rw [run_command, this]
  rfl

theorem parse_and_execute_single (os : OS) (st : Shell) {line : CString}
    {command : List CString} (hs : (tokenize line).bind split_commands = some [command]) :
    parse_and_execute os st line =
      ((wait_all ((run_command os false command st []).2.getD [])
          (run_command os false command st []).1),
        (run_command os false command st []).2.map (fun _ => ())) := by
  cases ht : tokenize line with
  | none =>
    rw [ht] at hs
    exact absurd hs (by simp)
  | some tokens =>
    rw [ht] at hs
    simp only [Option.some_bind] at hs
    have hl : tokens.length ≠ 0 := by
      intro e
      have h0 : split_commands [] = some [] := by decide
      rw [List.length_eq_zero.mp e, h0] at hs
      simp at hs
    simp only [parse_and_execute, ht, hl, if_false, hs, run_commands, List.length_singleton,
      gt_iff_lt, lt_self_iff_false, decide_False]
    rcases run_command os false command st [] with ⟨st1, _ | pids1⟩ <;> rfl

/-- C6: for every segment (never empty, as `split_commands` stores them):
without a `">"` token the argument list is the whole segment and no redirection
is set; with the first `">"` at index `i >= 1` and exactly one token after it,
the redirection target is that token and the argument list is the tokens at
indices `0 .. i-1`; `execute_single_command` is entered with exactly these, a
child it launches hands exactly this argument list to `execv`, and opens no
file but the target. -/
theorem redirection_argument_list (os : OS) (par : Bool) (st : Shell) (pids : List Int)
    (command : List CString) (hne : command ≠ []) :
    (GT ∉ command →
      parse_redirection command = .parsed command false none ∧
      run_command os par command st pids =
        record_pid pids (execute_single_command os st command false none par)) ∧
    (∀ pre file, pre ≠ [] → GT ∉ pre → command = pre ++ [GT, file] →
      pre = command.take pre.length ∧
      parse_redirection command = .parsed pre true (some file) ∧
      run_command os par command st pids =
        record_pid pids (execute_single_command os st pre true (some file) par)) ∧
    (∀ args redirect file,
      (∃ new, (execute_single_command os st args redirect file par).1.events =
          st.events ++ .call args redirect file :: new ∧
        ∀ a r f, Event.call a r f ∉ new) ∧
      ∀ child ∈ (execute_single_command os st args redirect file par).1.children,
        child ∈ st.children ∨
          ((∀ path argv, Event.execv path argv ∈ child.events → argv = args) ∧
            (∀ f ok, Event.openFile f ok ∈ child.events →
              redirect = true ∧ file = some f))) := by
  refine ⟨fun h => ⟨parse_redirection_none h, run_command_none st pids h hne⟩, ?_, ?_⟩
  · intro pre file hpre hgt hc
    subst hc
    exact ⟨by simp, parse_redirection_one file hgt, run_command_one file st pids hgt hpre⟩
  · intro args redirect file
    refine ⟨execute_single_command_events os st args redirect file par, ?_⟩
    intro child hc
    rcases execute_single_command_children os st args redirect file par child hc with h | h
    · exact Or.inl h
    · right
      rw [h]
      exact ⟨fun path argv he => (child_run_events os _ args redirect file _ he).1 path argv rfl,
        fun f ok he => (child_run_events os _ args redirect file _ he).2 f ok rfl⟩

theorem redirection_argument_list_witness :
    parse_redirection ["ls".toList, "-l".toList, ">".toList, "out".toList] =
        .parsed ["ls".toList, "-l".toList] true (some "out".toList) ∧
      (run_command sample_os false ["ls".toList, "-l".toList, ">".toList, "out".toList]
          (init_path []) []).1.children =
        [⟨42, [.openFile "out".toList true, .dup2 1, .dup2 2, .close,
          .write 2 "execv args: ".toList, .write 2 "'ls' ".toList, .write 2 "'-l' ".toList,
          .write 2 "\n".toList, .execv "/bin/ls".toList ["ls".toList, "-l".toList]]⟩] ∧
      (run_command sample_os false ["ls".toList, "-l".toList, ">".toList, "out".toList]
          (init_path []) []).2 = some [42] ∧
      run_command sample_os false ["ls".toList, "-l".toList, ">".toList, "out".toList]
          (init_path []) [] =
        record_pid [] (execute_single_command sample_os (init_path [])
          ["ls".toList, "-l".toList] true (some "out".toList) false) :=
  ⟨by decide, by decide, by decide,
   ((redirection_argument_list sample_os false (init_path []) []
      ["ls".toList, "-l".toList, ">".toList, "out".toList] (by decide)).2.1
      ["ls".toList, "-l".toList] "out".toList (by decide) (by decide) (by decide)).2.2⟩

/-- C7: for every segment whose first `">"` token is its last token, or is
followed by two or more tokens, the loop body writes the error message once and
does nothing else: `execute_single_command` is not entered, so no built-in is
performed, no child is forked and no file is opened; the path registry, the
working directory and the children are as before.  So for the lines `"cmd >"`
and `"cmd > a b"`. -/
theorem malformed_redirection_not_dispatched (os : OS) (par : Bool) (st : Shell)
    (pids : List Int) (pre : List CString) (h : GT ∉ pre) :
    run_command os par (pre ++ [GT]) st pids = (write_error st, some pids) ∧
    (∀ a b tail, run_command os par (pre ++ GT :: a :: b :: tail) st pids =
      (write_error st, some pids)) ∧
    (write_error st).events = st.events ++ [.write 2 ERROR_MSG] ∧
    (write_error st).children = st.children ∧
    (write_error st).path_dirs = st.path_dirs ∧
    (write_error st).cwd = st.cwd ∧
    parse_and_execute os st "cmd >".toList = (write_error st, some ()) ∧
    parse_and_execute os st "cmd > a b".toList = (write_error st, some ()) := by
  refine ⟨run_command_last st pids h, fun a b tail => run_command_many a b tail st pids h,
    rfl, rfl, rfl, rfl, ?_, ?_⟩
  · have hr : run_command os false ["cmd".toList, GT] st [] = (write_error st, some []) :=
      @run_command_last os false ["cmd".toList] st [] (by decide)
    rw [@parse_and_execute_single os st _ ["cmd".toList, GT] (by decide), hr]
    rfl
  · have hr : run_command os false ["cmd".toList, GT, ['a'], ['b']] st [] =
        (write_error st, some []) :=
      @run_command_many os false ["cmd".toList] ['a'] ['b'] [] st [] (by decide)
    rw [@parse_and_execute_single os st _ ["cmd".toList, GT, ['a'], ['b']] (by decide), hr]
    rfl

theorem malformed_redirection_not_dispatched_witness :
    run_command sample_os true (["ls".toList, "-l".toList] ++ [GT]) (init_path []) [7] =
        (write_error (init_path []), some [7]) ∧
      run_command sample_os true
          (["ls".toList, "-l".toList] ++ GT :: "a".toList :: "b".toList :: ["c".toList])
          (init_path []) [7] =
        (write_error (init_path []), some [7]) :=
  ⟨(malformed_redirection_not_dispatched sample_os true (init_path []) [7]
      ["ls".toList, "-l".toList] (by decide)).1,
   (malformed_redirection_not_dispatched sample_os true (init_path []) [7]
      ["ls".toList, "-l".toList] (by decide)).2.1 "a".toList "b".toList ["c".toList]⟩

theorem count_gt_split {pre tail : List CString} (h : GT ∉ pre) :
    List.count GT (pre ++ GT :: tail) = List.count GT tail + 1 := by
  rw [List.count_append, List.count_eq_zero_of_not_mem h, List.count_cons_self, Nat.zero_add]

/-- C8, the claim as stated fails: the segment `ls > >`, the only one of the
line `"ls >>"`, holds two `">"` tokens, yet no error is written;
`execute_single_command` is entered with the second `">"` as the redirection
target and the child opens the file `">"`. -/
theorem two_markers_counterexample :
    (tokenize "ls >>".toList).bind split_commands = some [["ls".toList, GT, GT]] ∧
      List.count GT ["ls".toList, GT, GT] = 2 ∧
      parse_redirection ["ls".toList, GT, GT] = .parsed ["ls".toList] true (some GT) ∧
      run_command sample_os false ["ls".toList, GT, GT] (init_path []) [] ≠
        (write_error (init_path []), some []) ∧
      (run_command sample_os false ["ls".toList, GT, GT] (init_path []) []).1.events =
        [.call ["ls".toList] true (some GT), .fork 42] ∧
      (run_command sample_os false ["ls".toList, GT, GT] (init_path []) []).1.children =
        [⟨42, [.openFile GT true, .dup2 1, .dup2 2, .close,
          .write 2 "execv args: ".toList, .write 2 "'ls' ".toList, .write 2 "\n".toList,
          .execv "/bin/ls".toList ["ls".toList]]⟩] := by
  decide

/-- C8 as amended: a segment that holds two or more `">"` tokens gets the error
message and is not executed, unless it is a non-empty argument list without
`">"` followed by exactly the two tokens `">"` `">"`; in that case the second
`">"` is taken as the redirection target and the argument list is dispatched. -/
theorem two_markers_rejected (os : OS) (par : Bool) (st : Shell) (pids : List Int)
    (command : List CString) (h2 : 2 ≤ List.count GT command) :
    ((¬ ∃ pre, pre ≠ [] ∧ GT ∉ pre ∧ command = pre ++ [GT, GT]) →
      run_command os par command st pids = (write_error st, some pids)) ∧
    (∀ pre, pre ≠ [] → GT ∉ pre → command = pre ++ [GT, GT] →
      parse_redirection command = .parsed pre true (some GT) ∧
      run_command os par command st pids =
        record_pid pids (execute_single_command os st pre true (some GT) par)) := by
  constructor
  · intro hex
    have hmem : GT ∈ command := List.count_pos_iff.mp (by omega)
    obtain ⟨pre, tail, hc, hpre⟩ := split_at_first_gt command hmem
    subst hc
    rw [count_gt_split hpre] at h2
    have htail : GT ∈ tail := List.count_pos_iff.mp (by omega)
    match tail, htail with
    | [x], hx =>
      have hx' : x = GT := (List.mem_singleton.mp hx).symm
      subst hx'
      by_cases hp : pre = []
      · subst hp
        exact run_command_empty GT st pids
      · exact absurd ⟨pre, hp, hpre, rfl⟩ hex
    | a :: b :: rest, _ => exact run_command_many a b rest st pids hpre
  · intro pre hne hpre hc
    subst hc
    exact ⟨parse_redirection_one GT hpre, run_command_one GT st pids hpre hne⟩

theorem two_markers_rejected_witness :
    2 ≤ List.count GT ["ls".toList, GT, "a".toList, GT, "b".toList] ∧
      run_command sample_os false ["ls".toList, GT, "a".toList, GT, "b".toList] (init_path [])
          [] =
        (write_error (init_path []), some []) :=
  ⟨by decide,
   (two_markers_rejected sample_os false (init_path []) []
      ["ls".toList, GT, "a".toList, GT, "b".toList] (by decide)).1 (by
        rintro ⟨pre, _, _, he⟩
        have h1 := congrArg List.getLast? he
        have h2 : (pre ++ [GT, GT]).getLast? = some GT := by simp
        rw [h2] at h1
        exact absurd h1 (by decide))⟩

theorem wait_all_events (pids : List Int) :
    ∀ st : Shell, (wait_all pids st).events = st.events ++ pids.map Event.waitpid := by
  induction pids with
  | nil => intro st; simp [wait_all]
  | cons pid pids ih => intro st; simp [wait_all, ih, Shell.emit]

theorem record_pid_events (pids : List Int) (result : Shell × Option Int) :
    (record_pid pids result).1.events = result.1.events ∨
      (record_pid pids result).1.events = result.1.events ++ [.fault] := by
  rcases result with ⟨st1, _ | pid⟩
  · left; rfl
  · simp only [record_pid]
    split
    · split
      · left; rfl
      · right; rfl
    · left; rfl

theorem run_command_calls (os : OS) (par : Bool) (command : List CString) (st : Shell)
    (pids : List Int) (hamp : AMP ∉ command) :
    ∃ new, (run_command os par command st pids).1.events = st.events ++ new ∧
      ∀ args r f, Event.call args r f ∈ new → args ≠ [] ∧ GT ∉ args ∧ AMP ∉ args := by
  have herr : ∃ new, (write_error st, some pids).1.events = st.events ++ new ∧
      ∀ args r f, Event.call args r f ∈ new → args ≠ [] ∧ GT ∉ args ∧ AMP ∉ args :=
    ⟨[.write 2 ERROR_MSG], rfl, by simp⟩
  have hcall : ∀ (args : List CString) (r : Bool) (f : Option CString), args ≠ [] → GT ∉ args →
      AMP ∉ args →
      ∃ new, (record_pid pids (execute_single_command os st args r f par)).1.events =
          st.events ++ new ∧
        ∀ a r' f', Event.call a r' f' ∈ new → a ≠ [] ∧ GT ∉ a ∧ AMP ∉ a := by
    intro args r f h1 h2 h3
    obtain ⟨new, he, hn⟩ := execute_single_command_events os st args r f par
    have hfirst : ∀ a r' f', Event.call a r' f' ∈ Event.call args r f :: new →
        a ≠ [] ∧ GT ∉ a ∧ AMP ∉ a := by
      intro a r' f' hmem
      rcases List.mem_cons.mp hmem with hmem | hmem
      · injection hmem with e1 e2 e3
        rw [e1]
        exact ⟨h1, h2, h3⟩
      · exact absurd hmem (hn a r' f')
    rcases record_pid_events pids (execute_single_command os st args r f par) with hr | hr
    · exact ⟨.call args r f :: new, by rw [hr, he], hfirst⟩
    · refine ⟨.call args r f :: new ++ [.fault], by rw [hr, he]; simp, ?_⟩
      intro a r' f' hmem
      rcases List.mem_append.mp hmem with hmem | hmem
      · exact hfirst a r' f' hmem
      · simp at hmem
  by_cases hgt : GT ∈ command
  · obtain ⟨pre, tail, hc, hpre⟩ := split_at_first_gt command hgt
    subst hc
    have hpa : AMP ∉ pre := fun h => hamp (List.mem_append_left _ h)
    match tail with
    | [] => rw [run_command_last st pids hpre]; exact herr
    | [file] =>
      by_cases hp : pre = []
      · subst hp
        rw [List.nil_append, run_command_empty file st pids]
        exact herr
      · rw [run_command_one file st pids hpre hp]
        exact hcall pre true (some file) hp hpre hpa
    | a :: b :: rest => rw [run_command_many a b rest st pids hpre]; exact herr
  · by_cases hne : command = []
    · subst hne
      exact herr
    · rw [run_command_none st pids hgt hne]
      exact hcall command false none hne hgt hamp

theorem run_commands_calls (os : OS) (par : Bool) (commands : List (List CString)) :
    (∀ command ∈ commands, AMP ∉ command) → ∀ (st : Shell) (pids : List Int),
      ∃ new, (run_commands os par commands st pids).1.events = st.events ++ new ∧
        ∀ args r f, Event.call args r f ∈ new → args ≠ [] ∧ GT ∉ args ∧ AMP ∉ args := by
  induction commands with
  | nil => intro _ st pids; exact ⟨[], by simp [run_commands], by simp⟩
  | cons command rest ih =>
    intro h st pids
    obtain ⟨new1, he1, hn1⟩ :=
      run_command_calls os par command st pids (h command (List.mem_cons_self _ _))
    rw [run_commands]
    rcases hrc : run_command os par command st pids with ⟨st1, _ | pids1⟩
    · rw [hrc] at he1
      exact ⟨new1, he1, hn1⟩
    · rw [hrc] at he1
      obtain ⟨new2, he2, hn2⟩ :=
        ih (fun c hc => h c (List.mem_cons_of_mem _ hc)) st1 pids1
      refine ⟨new1 ++ new2, ?_, ?_⟩
      · simp only at he1 ⊢
        rw [he2, he1, List.append_assoc]
      · intro args r f hmem
        rcases List.mem_append.mp hmem with hmem | hmem
        · exact hn1 args r f hmem
        · exact hn2 args r f hmem

/-- C9: for every line, every entry into `execute_single_command` made by
`parse_and_execute` has a non-empty argument list that holds no `">"` and no
`"&"` token (on a line where a write leaves its array the record ends with
`fault`, and the entries made until then are of this kind too); a segment
whose argument list is empty after the redirection is cut off, as in the line
`"> out.txt"`, gets the error message once and nothing else: no entry into
`execute_single_command`, no child, so no file opened. -/
theorem dispatch_only_wellformed (os : OS) (st : Shell) (line : CString) :
    (∃ new, (parse_and_execute os st line).1.events = st.events ++ new ∧
      ∀ args r f, Event.call args r f ∈ new → args ≠ [] ∧ GT ∉ args ∧ AMP ∉ args) ∧
    (∀ par pids command args r f, parse_redirection command = .parsed args r f → args = [] →
      run_command os par command st pids = (write_error st, some pids)) ∧
    (∀ par pids file, run_command os par [GT, file] st pids = (write_error st, some pids)) ∧
    parse_and_execute os st "> out.txt".toList = (write_error st, some ()) ∧
    (write_error st).events = st.events ++ [.write 2 ERROR_MSG] ∧
    (write_error st).children = st.children := by
  refine ⟨?_, ?_, fun par pids file => run_command_empty file st pids, ?_, rfl, rfl⟩
  · rw [parse_and_execute]
    cases ht : tokenize line with
    | none => exact ⟨[.fault], by simp [Shell.emit], by simp⟩
    | some tokens =>
      simp only
      by_cases h0 : tokens.length = 0
      · exact ⟨[], by simp [h0], by simp⟩
      · simp only [h0, if_false]
        cases hs : split_commands tokens with
        | none => exact ⟨[.fault], by simp [Shell.emit], by simp⟩
        | some commands =>
          simp only
          obtain ⟨new, he, hn⟩ := run_commands_calls os (decide (commands.length > 1)) commands
            (split_commands_no_amp hs) st []
          rcases hrc : run_commands os (decide (commands.length > 1)) commands st [] with
            ⟨st1, _ | pids1⟩
          · rw [hrc] at he
            exact ⟨new, he, hn⟩
          · rw [hrc] at he
            refine ⟨new ++ pids1.map Event.waitpid, ?_, ?_⟩
            · simp only at he ⊢
              rw [wait_all_events, he, List.append_assoc]
            · intro args r f hmem
              rcases List.mem_append.mp hmem with hmem | hmem
              · exact hn args r f hmem
              · simp at hmem
  · intro par pids command args r f hp ha
    subst ha
    rw [run_command, hp]
    rfl
  · have hr : run_command os false [GT, "out.txt".toList] st [] = (write_error st, some []) :=
      run_command_empty _ st []
    rw [@parse_and_execute_single os st _ [GT, "out.txt".toList] (by decide), hr]
    rfl

theorem dispatch_only_wellformed_witness :
    (parse_and_execute sample_os (init_path []) "ls > out & > x & path a".toList).1.events =
        [.call ["ls".toList] true (some "out".toList), .fork 42, .write 2 ERROR_MSG,
          .call ["path".toList, "a".toList] false none, .waitpid 42] ∧
      run_command sample_os false [GT, "x".toList] (init_path []) [] =
        (write_error (init_path []), some []) :=
  ⟨by decide,
   (dispatch_only_wellformed sample_os (init_path []) "> x".toList).2.1 false []
      [GT, "x".toList] [] true (some "x".toList) (by decide) rfl⟩

/-! ## The path registry -/

set_option maxRecDepth 100000 in
/-- C10, what the code does: the line `path d d .. d` with 65 directories has
66 tokens, within the token array, but `path_dirs` has 64 entries: `set_path`
writes the 65th outside it, and the run leaves defined behaviour there instead
of leaving the registry equal to the arguments.  With at most 64 directories
the registry is replaced as claimed: it starts as `["/bin"]`, and after the
line `path /usr/bin` twice it is exactly `["/usr/bin"]`. -/
theorem path_overflows_registry :
    (tokenize ("path".toList ++ (List.replicate 65 " d".toList).flatten)).map List.length =
        some 66 ∧
      parse_and_execute sample_os (init_path [])
          ("path".toList ++ (List.replicate 65 " d".toList).flatten) =
        (((init_path []).emit
          (.call (PATH :: List.replicate 65 "d".toList) false none)).emit .fault, none) ∧
      (init_path []).path_dirs = ["/bin".toList] ∧
      (parse_and_execute sample_os (parse_and_execute sample_os (init_path [])
          "path /usr/bin".toList).1 "path /usr/bin".toList).1.path_dirs =
        ["/usr/bin".toList] ∧
      (parse_and_execute sample_os (init_path []) "path".toList).1.path_dirs = [] := by
  decide

/-! ## The executable resolver -/

theorem resolve_in_none (os : OS) (cmd : CString) (dirs : List CString) :
    resolve_in os cmd dirs = none ↔ ∀ d ∈ dirs, os.access (d ++ '/' :: cmd) = false := by
  induction dirs with
  | nil => simp [resolve_in]
  | cons dir dirs ih =>
    rw [resolve_in]
    by_cases h : os.access (dir ++ '/' :: cmd) = true
    · simp [h]
    · simp only [h, Bool.false_eq_true, if_false, ih, List.mem_cons, forall_eq_or_imp]
      simp only [Bool.not_eq_true] at h
      simp [h]

theorem resolve_in_first (os : OS) (cmd : CString) (dirs : List CString) :
    ∀ (i : Nat) (d : CString), dirs[i]? = some d → os.access (d ++ '/' :: cmd) = true →
      (∀ e ∈ dirs.take i, os.access (e ++ '/' :: cmd) = false) →
      resolve_in os cmd dirs = some (d ++ '/' :: cmd) := by
  induction dirs with
  | nil => intro i d h; simp at h
  | cons dir dirs ih =>
    intro i d hd ha hbefore
    rw [resolve_in]
    cases i with
    | zero =>
      simp only [List.getElem?_cons_zero, Option.some.injEq] at hd
      subst hd
      simp [ha]
    | succ i =>
      simp only [List.take_succ_cons, List.mem_cons, forall_eq_or_imp] at hbefore
      simp only [hbefore.1, Bool.false_eq_true, if_false]
      simp only [List.getElem?_cons_succ] at hd
      exact ih i d hd ha hbefore.2

theorem resolve_in_some (os : OS) (cmd : CString) (dirs : List CString) :
    ∀ p : CString, resolve_in os cmd dirs = some p →
      ∃ (i : Nat) (d : CString), dirs[i]? = some d ∧ p = d ++ '/' :: cmd ∧
        os.access (d ++ '/' :: cmd) = true ∧
        ∀ e ∈ dirs.take i, os.access (e ++ '/' :: cmd) = false := by
  induction dirs with
  | nil => intro p h; simp [resolve_in] at h
  | cons dir dirs ih =>
    intro p h
    rw [resolve_in] at h
    by_cases ha : os.access (dir ++ '/' :: cmd) = true
    · simp only [ha, if_true, Option.some.injEq] at h
      exact ⟨0, dir, by simp, h.symm, ha, by simp⟩
    · simp only [ha, Bool.false_eq_true, if_false] at h
      obtain ⟨i, d, hd, hp, hacc, hbefore⟩ := ih p h
      refine ⟨i + 1, d, by simpa using hd, hp, hacc, ?_⟩
      simp only [List.take_succ_cons, List.mem_cons, forall_eq_or_imp]
      exact ⟨by simpa using ha, hbefore⟩

/-- C11: for every command name, registry and executability oracle: a name
with a `/` resolves to itself when it is executable and fails otherwise,
whatever the registry holds; a name without `/` resolves to
`dir_i ++ "/" ++ name` for the smallest index `i` at which that path is
executable, and fails exactly when no registry entry gives an executable
path. -/
theorem resolve_command_first_match (os : OS) (dirs : List CString) (cmd : CString) :
    ('/' ∈ cmd → ∀ dirs1 : List CString,
      resolve_command os dirs1 cmd = (if os.access cmd then some cmd else none)) ∧
    ('/' ∉ cmd →
      (∀ (i : Nat) (d : CString), dirs[i]? = some d → os.access (d ++ '/' :: cmd) = true →
        (∀ e ∈ dirs.take i, os.access (e ++ '/' :: cmd) = false) →
        resolve_command os dirs cmd = some (d ++ '/' :: cmd)) ∧
      (∀ p : CString, resolve_command os dirs cmd = some p →
        ∃ (i : Nat) (d : CString), dirs[i]? = some d ∧ p = d ++ '/' :: cmd ∧
          os.access (d ++ '/' :: cmd) = true ∧
          ∀ e ∈ dirs.take i, os.access (e ++ '/' :: cmd) = false) ∧
      (resolve_command os dirs cmd = none ↔
        ∀ d ∈ dirs, os.access (d ++ '/' :: cmd) = false)) := by
  constructor
  · intro h dirs1
    simp [resolve_command, h]
  · intro h
    have hr : resolve_command os dirs cmd = resolve_in os cmd dirs := by
      simp [resolve_command, h]
    rw [hr]
    exact ⟨resolve_in_first os cmd dirs, resolve_in_some os cmd dirs,
      resolve_in_none os cmd dirs⟩

theorem resolve_command_first_match_witness :
    resolve_command sample_os ["/usr/bin".toList, "/bin".toList, "/bin".toList] "ls".toList =
        some ("/bin".toList ++ '/' :: "ls".toList) ∧
      resolve_command sample_os ["/opt".toList] "/bin/ls".toList =
        (if sample_os.access "/bin/ls".toList then some "/bin/ls".toList else none) :=
  ⟨((resolve_command_first_match sample_os ["/usr/bin".toList, "/bin".toList, "/bin".toList]
      "ls".toList).2 (by decide)).1 1 "/bin".toList (by decide) (by decide) (by decide),
   (resolve_command_first_match sample_os [] "/bin/ls".toList).1 (by decide)
      ["/opt".toList]⟩

/-! ## The child after `fork` -/

theorem child_run_unresolved (os : OS) (dirs : List CString) (cmd : CString)
    (rest : List CString) (r : Bool) (f : Option CString)
    (h : resolve_command os dirs cmd = none) :
    ∃ pre, child_run os dirs (cmd :: rest) r f = pre ++ [.write 2 ERROR_MSG, .exit 1] ∧
      (∀ fd b, Event.write fd b ∉ pre) ∧ (∀ p a, Event.execv p a ∉ pre) ∧
      (∀ s, Event.exit s ∉ pre) := by
  cases r with
  | false => exact ⟨[], by simp [child_run, h], by simp, by simp, by simp⟩
  | true =>
    cases f with
    | none => exact ⟨[], by simp [child_run, execute_redirection], by simp, by simp, by simp⟩
    | some file =>
      by_cases ho : os.openFile file = true
      · exact ⟨[.openFile file true, .dup2 1, .dup2 2, .close],
          by simp [child_run, execute_redirection, ho, h], by simp, by simp, by simp⟩
      · exact ⟨[.openFile file false], by simp [child_run, execute_redirection, ho],
          by simp, by simp, by simp⟩

/-- C12: after `path` is dispatched with zero arguments the registry is empty,
and then for every command name without a `/`, whatever the file system holds,
resolution fails: the child writes the error message once, ends with
`_exit(1)`, and never calls `execv`. -/
theorem empty_registry_fails (os : OS) (st : Shell) (r0 : Bool) (f0 : Option CString)
    (par : Bool) (cmd : CString) (rest : List CString) (redirect : Bool)
    (file : Option CString) (h : '/' ∉ cmd) :
    (execute_single_command os st [PATH] r0 f0 par).1.path_dirs = [] ∧
    resolve_command os (execute_single_command os st [PATH] r0 f0 par).1.path_dirs cmd = none ∧
    (∃ pre, child_run os (execute_single_command os st [PATH] r0 f0 par).1.path_dirs
        (cmd :: rest) redirect file = pre ++ [.write 2 ERROR_MSG, .exit 1] ∧
      (∀ fd b, Event.write fd b ∉ pre) ∧ (∀ p a, Event.execv p a ∉ pre) ∧
      (∀ s, Event.exit s ∉ pre)) ∧
    (∀ child ∈ (execute_single_command os (execute_single_command os st [PATH] r0 f0 par).1
        (cmd :: rest) redirect file par).1.children,
      child ∈ (execute_single_command os st [PATH] r0 f0 par).1.children ∨
        child.events = child_run os (execute_single_command os st [PATH] r0 f0 par).1.path_dirs
          (cmd :: rest) redirect file) := by
  have hp : (execute_single_command os st [PATH] r0 f0 par).1.path_dirs = [] := by
    rw [execute_path os st [] r0 f0 par (Nat.zero_le _)]
  have hr : resolve_command os [] cmd = none := by simp [resolve_command, h, resolve_in]
  refine ⟨hp, by rw [hp]; exact hr, ?_, ?_⟩
  · rw [hp]
    exact child_run_unresolved os [] cmd rest redirect file hr
  · exact execute_single_command_children os _ (cmd :: rest) redirect file par

theorem empty_registry_fails_witness :
    (parse_and_execute sample_os (init_path []) "ls -l".toList).1.children =
        [⟨42, debug_print ["ls".toList, "-l".toList] ++
          [.execv "/bin/ls".toList ["ls".toList, "-l".toList]]⟩] ∧
      (parse_and_execute sample_os (parse_and_execute sample_os (init_path []) "path".toList).1
          "ls -l".toList).1.children = [⟨42, [.write 2 ERROR_MSG, .exit 1]⟩] ∧
      resolve_command sample_os
        (execute_single_command sample_os (init_path []) [PATH] false none false).1.path_dirs
        "ls".toList = none :=
  ⟨by decide, by decide,
   (empty_registry_fails sample_os (init_path []) false none false "ls".toList
      ["-l".toList] false none (by decide)).2.1⟩

/-! ## Steps and traces of `parse_and_execute` -/

theorem fork_pids_append (a b : List Event) : fork_pids (a ++ b) = fork_pids a ++ fork_pids b := by
  simp [fork_pids, List.filterMap_append]

theorem waited_pids_append (a b : List Event) :
    waited_pids (a ++ b) = waited_pids a ++ waited_pids b := by
  simp [waited_pids, List.filterMap_append]

theorem waited_pids_map (pids : List Int) : waited_pids (pids.map Event.waitpid) = pids := by
  induction pids with
  | nil => rfl
  | cons p ps ih =>
    simp only [waited_pids, List.map_cons, List.filterMap_cons] at ih ⊢
    rw [ih]

theorem fork_pids_map (pids : List Int) : fork_pids (pids.map Event.waitpid) = [] := by
  induction pids with
  | nil => rfl
  | cons p ps ih =>
    simp only [fork_pids, List.map_cons, List.filterMap_cons] at ih ⊢
    exact ih

/-- What one entry into `execute_single_command` adds to the record: no
`waitpid`, one `fork` exactly when the command is not a built-in, and a child
and a positive return value exactly for a successful `fork`. -/
theorem execute_step (os : OS) (st : Shell) (cmd : CString) (rest : List CString) (r : Bool)
    (f : Option CString) (par : Bool) :
    ∃ new, (execute_single_command os st (cmd :: rest) r f par).1.events = st.events ++ new ∧
      waited_pids new = [] ∧
      ((execute_single_command os st (cmd :: rest) r f par).1.children.map Child.pid =
        st.children.map Child.pid ++ fork_pids new) ∧
      new.countP is_fork = (if is_builtin cmd then 0 else 1) ∧
      (∀ pid, (execute_single_command os st (cmd :: rest) r f par).2 = some pid →
        (if pid > 0 then [pid] else []) = fork_pids new) := by
  by_cases h1 : cmd = EXIT
  · subst h1
    cases rest with
    | nil =>
      rw [execute_exit]
      exact ⟨[.call [EXIT] r f, .exit 0], by simp [Shell.emit], rfl, by simp [Shell.emit, fork_pids],
        rfl, by simp⟩
    | cons a rest =>
      rw [execute_exit_args]
      exact ⟨[.call (EXIT :: a :: rest) r f, .write 2 ERROR_MSG], by simp [write_error, Shell.emit],
        rfl, by simp [write_error, Shell.emit, fork_pids], rfl, by simp [fork_pids]⟩
  · by_cases h2 : cmd = CD
    · subst h2
      by_cases hl : rest.length = 1
      · obtain ⟨d, hd⟩ := List.length_eq_one.mp hl
        subst hd
        rw [execute_cd_one]
        cases os.chdir st.cwd d with
        | none =>
          exact ⟨[.call [CD, d] r f, .chdir d false, .write 2 ERROR_MSG],
            by simp [write_error, Shell.emit], rfl, by simp [write_error, Shell.emit, fork_pids],
            rfl, by simp [fork_pids]⟩
        | some c =>
          exact ⟨[.call [CD, d] r f, .chdir d true], by simp [Shell.emit], rfl,
            by simp [Shell.emit, fork_pids], rfl, by simp [fork_pids]⟩
      · rw [execute_cd_arity os st rest r f par hl]
        exact ⟨[.call (CD :: rest) r f, .write 2 ERROR_MSG], by simp [write_error, Shell.emit],
          rfl, by simp [write_error, Shell.emit, fork_pids], rfl, by simp [fork_pids]⟩
    · by_cases h3 : cmd = PATH
      · subst h3
        by_cases hl : rest.length ≤ MAX_PATH_DIRS
        · rw [execute_path os st rest r f par hl]
          exact ⟨[.call (PATH :: rest) r f], by simp [Shell.emit], rfl,
            by simp [Shell.emit, fork_pids], rfl, by simp [fork_pids]⟩
        · rw [execute_path_overflow os st rest r f par (by omega)]
          exact ⟨[.call (PATH :: rest) r f, .fault], by simp [Shell.emit], rfl,
            by simp [Shell.emit, fork_pids], rfl, by simp⟩
      · have hb : is_builtin cmd = false := by simp [is_builtin, h1, h2, h3]
        rw [execute_external os st cmd rest r f par h1 h2 h3, hb]
        cases os.fork (st.events ++ [.call (cmd :: rest) r f]) with
        | none =>
          exact ⟨[.call (cmd :: rest) r f, .fork (-1), .write 2 ERROR_MSG],
            by simp [write_error, Shell.emit], rfl, by simp [write_error, Shell.emit, fork_pids],
            rfl, by simp [fork_pids]⟩
        | some k =>
          have hk : ((k : Int) + 1 > 0) := by omega
          exact ⟨[.call (cmd :: rest) r f, .fork (k + 1)], by simp [Shell.emit], rfl,
            by simp [Shell.emit, fork_pids, hk], rfl, by simp [fork_pids, hk]⟩

theorem run_command_error_step (st : Shell) (pids : List Int) :
    ∃ new, (write_error st, some pids).1.events = st.events ++ new ∧
      waited_pids new = [] ∧
      ((write_error st, some pids).1.children.map Child.pid =
        st.children.map Child.pid ++ fork_pids new) ∧
      new.countP is_fork = 0 ∧
      (∀ pids1, (write_error st, some pids).2 = some pids1 → pids1 = pids ++ fork_pids new) :=
  ⟨[.write 2 ERROR_MSG], rfl, rfl, by simp [write_error, Shell.emit, fork_pids], rfl,
    by simp [fork_pids]⟩

/-- What one iteration of the first loop of `parse_and_execute` adds to the
record. -/
theorem run_command_step (os : OS) (par : Bool) (command : List CString) (st : Shell)
    (pids : List Int) :
    ∃ new, (run_command os par command st pids).1.events = st.events ++ new ∧
      waited_pids new = [] ∧
      ((run_command os par command st pids).1.children.map Child.pid =
        st.children.map Child.pid ++ fork_pids new) ∧
      new.countP is_fork = (if forks_child command then 1 else 0) ∧
      (∀ pids1, (run_command os par command st pids).2 = some pids1 →
        pids1 = pids ++ fork_pids new) := by
  rcases hp : parse_redirection command with _ | ⟨args, r, f⟩
  · have h1 : run_command os par command st pids = (write_error st, some pids) := by
      simp [run_command, hp]
    have h2 : forks_child command = false := by simp [forks_child, hp]
    rw [h1, h2]
    exact run_command_error_step st pids
  · cases args with
    | nil =>
      have h1 : run_command os par command st pids = (write_error st, some pids) := by
        simp [run_command, hp]
      have h2 : forks_child command = false := by simp [forks_child, hp]
      rw [h1, h2]
      exact run_command_error_step st pids
    | cons cmd rest =>
      have h2 : forks_child command = !is_builtin cmd := by simp [forks_child, hp]
      obtain ⟨new, he, hw, hc, hn, hpid⟩ := execute_step os st cmd rest r f par
      have hcount : new.countP is_fork = (if forks_child command then 1 else 0) := by
        rw [hn, h2]
        cases is_builtin cmd <;> rfl
      rw [run_command_parsed os par st pids hp]
      rcases hres : execute_single_command os st (cmd :: rest) r f par with ⟨st1, _ | pid⟩
      · rw [hres] at he hc
        exact ⟨new, he, hw, hc, hcount, by simp [record_pid]⟩
      · rw [hres] at he hc hpid
        simp only at he hc
        have hf := hpid pid rfl
        simp only [record_pid]
        by_cases hpos : pid > 0
        · rw [if_pos hpos] at hf ⊢
          by_cases hcap : pids.length < MAX_COMMANDS
          · rw [if_pos hcap]
            refine ⟨new, he, hw, hc, hcount, ?_⟩
            intro pids1 h1
            rw [← hf]
            exact (Option.some.inj h1).symm
          · rw [if_neg hcap]
            refine ⟨new ++ [.fault], ?_, ?_, ?_, ?_, by simp⟩
            · simp only [Shell.emit]
              rw [he, List.append_assoc]
            · rw [waited_pids_append, hw]
              rfl
            · rw [fork_pids_append]
              simp only [Shell.emit]
              rw [hc]
              simp [fork_pids]
            · rw [List.countP_append, hcount]
              rfl
        · rw [if_neg hpos] at hf ⊢
          refine ⟨new, he, hw, hc, hcount, ?_⟩
          intro pids1 h1
          rw [← hf, List.append_nil]
          exact (Option.some.inj h1).symm

/-- What the first loop of `parse_and_execute` adds to the record: no
`waitpid`; the children launched and, when the loop ends, the pids stored are
those of the successful forks, in order. -/
theorem run_commands_trace (os : OS) (par : Bool) (commands : List (List CString)) :
    ∀ (st : Shell) (pids : List Int),
      ∃ new, (run_commands os par commands st pids).1.events = st.events ++ new ∧
        waited_pids new = [] ∧
        ((run_commands os par commands st pids).1.children.map Child.pid =
          st.children.map Child.pid ++ fork_pids new) ∧
        (∀ pids1, (run_commands os par commands st pids).2 = some pids1 →
          pids1 = pids ++ fork_pids new ∧
          new.countP is_fork = commands.countP forks_child) := by
  induction commands with
  | nil =>
    intro st pids
    exact ⟨[], by simp [run_commands], rfl, by simp [run_commands, fork_pids],
      by simp [run_commands, fork_pids]⟩
  | cons command rest ih =>
    intro st pids
    obtain ⟨new1, he1, hw1, hc1, hn1, hp1⟩ := run_command_step os par command st pids
    rw [run_commands]
    rcases hrc : run_command os par command st pids with ⟨st1, _ | pids1⟩
    · rw [hrc] at he1 hc1
      exact ⟨new1, he1, hw1, hc1, by simp⟩
    · rw [hrc] at he1 hc1 hp1
      obtain ⟨new2, he2, hw2, hc2, hp2⟩ := ih st1 pids1
      have hpids1 := hp1 pids1 rfl
      refine ⟨new1 ++ new2, ?_, ?_, ?_, ?_⟩
      · simp only at he1 ⊢
        rw [he2, he1, List.append_assoc]
      · rw [waited_pids_append, hw1, hw2]; rfl
      · simp only at hc1 ⊢
        rw [hc2, hc1, fork_pids_append, List.append_assoc]
      · intro pids2 h2
        obtain ⟨h3, h4⟩ := hp2 pids2 h2
        refine ⟨by rw [h3, hpids1, fork_pids_append, List.append_assoc], ?_⟩
        rw [List.countP_append, hn1, h4, List.countP_cons]
        omega

theorem wait_all_children (pids : List Int) :
    ∀ st : Shell, (wait_all pids st).children = st.children ∧
      (wait_all pids st).path_dirs = st.path_dirs ∧ (wait_all pids st).cwd = st.cwd := by
  induction pids with
  | nil => intro st; simp [wait_all]
  | cons pid pids ih => intro st; simp [wait_all, ih, Shell.emit]

/-- What `parse_and_execute` adds to the record when it returns: the steps of
the first loop, without any `waitpid`, and then one `waitpid` for each
successful fork, in order. -/
theorem parse_and_execute_trace (os : OS) (st : Shell) (line : CString)
    (h : (parse_and_execute os st line).2 = some ()) :
    ∃ commands new, (tokenize line).bind split_commands = some commands ∧
      (parse_and_execute os st line).1.events =
        st.events ++ new ++ (fork_pids new).map Event.waitpid ∧
      waited_pids new = [] ∧
      ((parse_and_execute os st line).1.children.map Child.pid =
        st.children.map Child.pid ++ fork_pids new) ∧
      new.countP is_fork = commands.countP forks_child := by
  rw [parse_and_execute] at h ⊢
  cases ht : tokenize line with
  | none =>
    rw [ht] at h
    simp at h
  | some tokens =>
    rw [ht] at h
    simp only at h ⊢
    by_cases h0 : tokens.length = 0
    · have hs : split_commands tokens = some [] := by
        rw [List.length_eq_zero.mp h0]
        decide
      exact ⟨[], [], by simp [hs], by simp [h0, fork_pids], rfl, by simp [h0, fork_pids], rfl⟩
    · simp only [h0, if_false] at h ⊢
      cases hs : split_commands tokens with
      | none =>
        rw [hs] at h
        simp at h
      | some commands =>
        rw [hs] at h
        simp only at h ⊢
        obtain ⟨new, he, hw, hc, hp⟩ := run_commands_trace os
          (decide (commands.length > 1)) commands st []
        rcases hrc : run_commands os (decide (commands.length > 1)) commands st [] with
          ⟨st1, _ | pids1⟩
        · rw [hrc] at h
          simp at h
        · rw [hrc] at he hc hp
          obtain ⟨hp1, hp2⟩ := hp pids1 rfl
          simp only [List.nil_append] at hp1
          refine ⟨commands, new, by simp [hs], ?_, hw, ?_, hp2⟩
          · simp only at he ⊢
            rw [wait_all_events, he, hp1]
          · simp only at hc ⊢
            rw [(wait_all_children pids1 st1).1, hc]

theorem parse_and_execute_exit (os : OS) (st : Shell) :
    parse_and_execute os st "exit".toList =
      ((st.emit (.call [EXIT] false none)).emit (.exit 0), none) := by
  have hp : parse_redirection [EXIT] = .parsed [EXIT] false none := by decide
  rw [@parse_and_execute_single os st _ [EXIT] (by decide),
    run_command_parsed os false st [] hp, execute_exit]
  rfl

/-! ## The built-in commands -/

/-- C13: for every segment whose argument list starts with `exit`: with one
or more further arguments the shell writes the error message, does not
terminate, and the loop goes on with the remaining segments; with no further
argument the process ends at once in `exit(0)`, no later segment of the line
is dispatched and no later line is read. -/
theorem exit_builtin (os : OS) (par : Bool) (st : Shell) (pids : List Int)
    (command : List CString) (extra : List CString) (r : Bool) (f : Option CString)
    (more : List (List CString))
    (hp : parse_redirection command = .parsed (EXIT :: extra) r f) :
    (extra ≠ [] →
      run_command os par command st pids =
        (write_error (st.emit (.call (EXIT :: extra) r f)), some pids) ∧
      run_commands os par (command :: more) st pids =
        run_commands os par more (write_error (st.emit (.call (EXIT :: extra) r f))) pids) ∧
    (extra = [] →
      run_command os par command st pids =
        ((st.emit (.call [EXIT] r f)).emit (.exit 0), none) ∧
      run_commands os par (command :: more) st pids =
        ((st.emit (.call [EXIT] r f)).emit (.exit 0), none)) ∧
    (GT ∉ extra → parse_redirection (EXIT :: extra) = .parsed (EXIT :: extra) false none) ∧
    parse_and_execute os st "exit".toList =
      ((st.emit (.call [EXIT] false none)).emit (.exit 0), none) ∧
    parse_and_execute os st "exit 1".toList =
      (write_error (st.emit (.call [EXIT, "1".toList] false none)), some ()) ∧
    parse_and_execute os st "exit & ls".toList =
      ((st.emit (.call [EXIT] false none)).emit (.exit 0), none) ∧
    (∀ (interactive : Bool) (lines : List CString),
      (main_loop os interactive ("exit\n".toList :: lines) st).2 = none ∧
      (main_loop os interactive ("exit\n".toList :: lines) st).1.events.getLast? =
        some (.exit 0)) := by
  refine ⟨?_, ?_, ?_, parse_and_execute_exit os st, ?_, ?_, ?_⟩
  · intro hne
    obtain ⟨a, rest, rfl⟩ := List.exists_cons_of_ne_nil hne
    have h1 : run_command os par command st pids =
        (write_error (st.emit (.call (EXIT :: a :: rest) r f)), some pids) := by
      rw [run_command_parsed os par st pids hp, execute_exit_args]
      rfl
    refine ⟨h1, ?_⟩
    rw [run_commands, h1]
  · intro he
    subst he
    have h1 : run_command os par command st pids =
        ((st.emit (.call [EXIT] r f)).emit (.exit 0), none) := by
      rw [run_command_parsed os par st pids hp, execute_exit]
      rfl
    refine ⟨h1, ?_⟩
    rw [run_commands, h1]
  · intro hgt
    apply parse_redirection_none
    simp only [List.mem_cons, not_or]
    exact ⟨by decide, hgt⟩
  · have hp1 : parse_redirection [EXIT, "1".toList] = .parsed [EXIT, "1".toList] false none := by
      decide
    rw [@parse_and_execute_single os st _ [EXIT, "1".toList] (by decide),
      run_command_parsed os false st [] hp1, execute_exit_args]
    rfl
  · have hp1 : parse_redirection [EXIT] = .parsed [EXIT] false none := by decide
    have ht : tokenize "exit & ls".toList = some [EXIT, AMP, "ls".toList] := by decide
    have hs : split_commands [EXIT, AMP, "ls".toList] = some [[EXIT], ["ls".toList]] := by
      decide
    have h1 : run_command os true [EXIT] st [] =
        ((st.emit (.call [EXIT] false none)).emit (.exit 0), none) := by
      rw [run_command_parsed os true st [] hp1, execute_exit]
      rfl
    simp only [parse_and_execute, ht, hs, List.length_cons, List.length_nil, run_commands, h1]
    rfl
  · intro interactive lines
    have hc : chomp "exit\n".toList = "exit".toList := by decide
    rw [main_loop, hc, parse_and_execute_exit]
    exact ⟨rfl, by simp [Shell.emit]⟩

theorem exit_builtin_witness :
    run_commands sample_os true [["exit".toList, "now".toList], ["ls".toList]] (init_path []) [] =
        run_commands sample_os true [["ls".toList]]
          (write_error ((init_path []).emit (.call ["exit".toList, "now".toList] false none)))
          [] ∧
      run_commands sample_os true [["exit".toList, ">".toList, "f".toList], ["ls".toList]]
          (init_path []) [] =
        (((init_path []).emit (.call [EXIT] true (some "f".toList))).emit (.exit 0), none) :=
  ⟨((exit_builtin sample_os true (init_path []) [] ["exit".toList, "now".toList]
      ["now".toList] false none [["ls".toList]] (by decide)).1 (by decide)).2,
   ((exit_builtin sample_os true (init_path []) [] ["exit".toList, ">".toList, "f".toList]
      [] true (some "f".toList) [["ls".toList]] (by decide)).2.1 rfl).2⟩

/-- C14: for every segment whose argument list starts with `cd`: with 0 or
with 2 or more arguments after the name the shell writes the error message,
does not call `chdir`, and leaves the working directory, the path registry and
the children as they were; with exactly one argument it calls `chdir` on that
argument, writes the error message exactly when `chdir` fails, and the working
directory changes exactly when it succeeds. -/
theorem cd_builtin (os : OS) (par : Bool) (st : Shell) (pids : List Int)
    (command : List CString) (rest : List CString) (r : Bool) (f : Option CString)
    (hp : parse_redirection command = .parsed (CD :: rest) r f) :
    (rest.length ≠ 1 →
      run_command os par command st pids =
        (write_error (st.emit (.call (CD :: rest) r f)), some pids) ∧
      (run_command os par command st pids).1.events =
        st.events ++ [.call (CD :: rest) r f, .write 2 ERROR_MSG] ∧
      (run_command os par command st pids).1.cwd = st.cwd ∧
      (run_command os par command st pids).1.path_dirs = st.path_dirs ∧
      (run_command os par command st pids).1.children = st.children) ∧
    (∀ d, rest = [d] →
      (run_command os par command st pids).1.events =
        st.events ++ [.call [CD, d] r f, .chdir d (os.chdir st.cwd d).isSome] ++
          (if (os.chdir st.cwd d).isSome then [] else [.write 2 ERROR_MSG]) ∧
      (run_command os par command st pids).1.cwd = (os.chdir st.cwd d).getD st.cwd ∧
      (run_command os par command st pids).1.path_dirs = st.path_dirs ∧
      (run_command os par command st pids).1.children = st.children ∧
      (run_command os par command st pids).2 = some pids) := by
  constructor
  · intro hl
    have h1 : run_command os par command st pids =
        (write_error (st.emit (.call (CD :: rest) r f)), some pids) := by
      rw [run_command_parsed os par st pids hp, execute_cd_arity os st rest r f par hl]
      rfl
    rw [h1]
    exact ⟨rfl, by simp [write_error, Shell.emit], rfl, rfl, rfl⟩
  · intro d hd
    subst hd
    rw [run_command_parsed os par st pids hp, execute_cd_one]
    cases os.chdir st.cwd d with
    | none => exact ⟨by simp [write_error, Shell.emit, record_pid], rfl, rfl, rfl, rfl⟩
    | some c => exact ⟨by simp [Shell.emit, record_pid], rfl, rfl, rfl, rfl⟩

theorem cd_builtin_witness :
    (run_command sample_os false ["cd".toList] (init_path "/home".toList) [7] =
        (write_error ((init_path "/home".toList).emit (.call [CD] false none)), some [7])) ∧
      (run_command sample_os false ["cd".toList, "/tmp".toList] (init_path "/home".toList) [7]
          ).1.cwd = (sample_os.chdir "/home".toList "/tmp".toList).getD "/home".toList ∧
      (run_command sample_os false ["cd".toList, "/nowhere".toList] (init_path "/home".toList)
          [7]).1.events =
        [.call [CD, "/nowhere".toList] false none, .chdir "/nowhere".toList false,
          .write 2 ERROR_MSG] :=
  ⟨((cd_builtin sample_os false (init_path "/home".toList) [7] ["cd".toList] [] false none
      (by decide)).1 (by decide)).1,
   ((cd_builtin sample_os false (init_path "/home".toList) [7] ["cd".toList, "/tmp".toList]
      ["/tmp".toList] false none (by decide)).2 "/tmp".toList rfl).2.1,
   by decide⟩

theorem record_pid_not_positive (pids : List Int) (result : Shell × Option Int)
    (h : ∀ pid, result.2 = some pid → ¬ pid > 0) :
    record_pid pids result = (result.1, result.2.map (fun _ => pids)) := by
  rcases result with ⟨st1, _ | pid⟩
  · rfl
  · simp [record_pid, h pid rfl]

theorem execute_builtin (os : OS) (st : Shell) (cmd : CString) (rest : List CString) (r : Bool)
    (f : Option CString) (par : Bool) (hb : cmd = EXIT ∨ cmd = CD ∨ cmd = PATH) :
    (execute_single_command os st (cmd :: rest) r f par).1.children = st.children ∧
    ((execute_single_command os st (cmd :: rest) r f par).2 = some 0 ∨
      ((execute_single_command os st (cmd :: rest) r f par).2 = none ∧ cmd = EXIT ∧ rest = [] ∧
        (execute_single_command os st (cmd :: rest) r f par).1.events =
          st.events ++ [.call [EXIT] r f, .exit 0]) ∨
      ((execute_single_command os st (cmd :: rest) r f par).2 = none ∧ cmd = PATH ∧
        MAX_PATH_DIRS < rest.length ∧
        (execute_single_command os st (cmd :: rest) r f par).1.events =
          st.events ++ [.call (PATH :: rest) r f, .fault])) := by
  rcases hb with hb | hb | hb
  · subst hb
    cases rest with
    | nil =>
      rw [execute_exit]
      exact ⟨rfl, Or.inr (Or.inl ⟨rfl, rfl, rfl, by simp [Shell.emit]⟩)⟩
    | cons a rest =>
      rw [execute_exit_args]
      exact ⟨rfl, Or.inl rfl⟩
  · subst hb
    by_cases hl : rest.length = 1
    · obtain ⟨d, hd⟩ := List.length_eq_one.mp hl
      subst hd
      rw [execute_cd_one]
      cases os.chdir st.cwd d <;> exact ⟨rfl, Or.inl rfl⟩
    · rw [execute_cd_arity os st rest r f par hl]
      exact ⟨rfl, Or.inl rfl⟩
  · subst hb
    by_cases hl : rest.length ≤ MAX_PATH_DIRS
    · rw [execute_path os st rest r f par hl]
      exact ⟨rfl, Or.inl rfl⟩
    · have hl1 : MAX_PATH_DIRS < rest.length := by omega
      rw [execute_path_overflow os st rest r f par hl1]
      exact ⟨rfl, Or.inr (Or.inr ⟨rfl, rfl, hl1, by simp [Shell.emit]⟩)⟩

/-- C15: for every segment whose argument list starts with exactly `exit`,
`cd` or `path`, whatever the arguments and whether or not the built-in
succeeds: no `fork` is called, no child is added, and the pids stored for
waiting are unchanged; `execute_single_command` returns 0 or ends the process
in `exit(0)`, and the only other outcome is that of `path` with more than
`MAX_PATH_DIRS` directories, where the run ends at the write of `set_path`
outside `path_dirs`, again with no fork, no child and no pid stored. -/
theorem builtins_never_fork (os : OS) (par : Bool) (st : Shell) (pids : List Int)
    (command : List CString) (cmd : CString) (rest : List CString) (r : Bool)
    (f : Option CString) (hp : parse_redirection command = .parsed (cmd :: rest) r f)
    (hb : cmd = EXIT ∨ cmd = CD ∨ cmd = PATH) :
    ((execute_single_command os st (cmd :: rest) r f par).2 = some 0 ∨
      ((execute_single_command os st (cmd :: rest) r f par).2 = none ∧
        (execute_single_command os st (cmd :: rest) r f par).1.events =
          st.events ++ [.call [EXIT] r f, .exit 0]) ∨
      ((execute_single_command os st (cmd :: rest) r f par).2 = none ∧ cmd = PATH ∧
        MAX_PATH_DIRS < rest.length ∧
        (execute_single_command os st (cmd :: rest) r f par).1.events =
          st.events ++ [.call (PATH :: rest) r f, .fault])) ∧
    (∃ new, (run_command os par command st pids).1.events = st.events ++ new ∧
      new.countP is_fork = 0 ∧ (∀ result, Event.fork result ∉ new)) ∧
    (run_command os par command st pids).1.children = st.children ∧
    ((run_command os par command st pids).2 = some pids ∨
      (run_command os par command st pids).2 = none) := by
  obtain ⟨hc, hr⟩ := execute_builtin os st cmd rest r f par hb
  have hbi : is_builtin cmd = true := by
    rcases hb with h | h | h <;> (subst h; decide)
  obtain ⟨new, he, _, _, hn, _⟩ := execute_step os st cmd rest r f par
  rw [hbi] at hn
  simp only [if_true] at hn
  have hnp : ∀ pid, (execute_single_command os st (cmd :: rest) r f par).2 = some pid →
      ¬ pid > 0 := by
    intro pid hpid
    rcases hr with hr | ⟨h1, _⟩ | ⟨h1, _⟩
    · rw [hr] at hpid
      have := Option.some.inj hpid
      omega
    · rw [h1] at hpid
      exact absurd hpid (by simp)
    · rw [h1] at hpid
      exact absurd hpid (by simp)
  rw [run_command_parsed os par st pids hp, record_pid_not_positive pids _ hnp]
  refine ⟨?_, ⟨new, he, hn, ?_⟩, hc, ?_⟩
  · rcases hr with hr | ⟨h1, _, _, h4⟩ | ⟨h1, h2, h3, h4⟩
    · exact Or.inl hr
    · exact Or.inr (Or.inl ⟨h1, h4⟩)
    · exact Or.inr (Or.inr ⟨h1, h2, h3, h4⟩)
  · intro result hmem
    have : 0 < new.countP is_fork := List.countP_pos_iff.mpr ⟨_, hmem, rfl⟩
    omega
  · rcases hr with hr | ⟨h1, _⟩ | ⟨h1, _⟩
    · left
      simp [hr]
    · right
      simp [h1]
    · right
      simp [h1]

theorem builtins_never_fork_witness :
    (run_command sample_os true ["path".toList, "/bin".toList, ">".toList, "f".toList]
          (init_path []) [7]).1.children = [] ∧
      ((run_command sample_os true ["cd".toList, "/nowhere".toList] (init_path []) [7]).2 =
          some [7] ∨
        (run_command sample_os true ["cd".toList, "/nowhere".toList] (init_path []) [7]).2 =
          none) :=
  ⟨(builtins_never_fork sample_os true (init_path []) [7]
      ["path".toList, "/bin".toList, ">".toList, "f".toList] "path".toList ["/bin".toList]
      true (some "f".toList) (by decide) (by decide)).2.2.1,
   (builtins_never_fork sample_os true (init_path []) [7] ["cd".toList, "/nowhere".toList]
      "cd".toList ["/nowhere".toList] false none (by decide) (by decide)).2.2.2⟩

/-! ## Launching and waiting -/

theorem no_waitpid_of_waited_nil {events : List Event} (h : waited_pids events = []) :
    ∀ pid, Event.waitpid pid ∉ events := by
  intro pid hmem
  have : pid ∈ waited_pids events := by
    simp only [waited_pids, List.mem_filterMap]
    exact ⟨_, hmem, rfl⟩
  rw [h] at this
  simp at this

/-- On a line on which `parse_and_execute` returns (no `exit` ended the
process and no write left its array), what it adds to the record is first a
part without any `waitpid`, holding all the forks, and then exactly one
`waitpid` for each successful fork, with the pids in launch order; the children
launched are exactly those waited for, and `main` reads the next line only
after that. -/
theorem returning_line_forks_then_waits (os : OS) (st : Shell) (line : CString)
    (h : (parse_and_execute os st line).2 = some ()) :
    ∃ launch : List Event,
      (parse_and_execute os st line).1.events =
        st.events ++ launch ++ (fork_pids launch).map Event.waitpid ∧
      (∀ pid, Event.waitpid pid ∉ launch) ∧
      (∀ result, Event.fork result ∉ (fork_pids launch).map Event.waitpid) ∧
      waited_pids (launch ++ (fork_pids launch).map Event.waitpid) =
        fork_pids (launch ++ (fork_pids launch).map Event.waitpid) ∧
      (parse_and_execute os st line).1.children.map Child.pid =
        st.children.map Child.pid ++
          waited_pids (launch ++ (fork_pids launch).map Event.waitpid) ∧
      (∀ (interactive : Bool) (raw : CString) (lines : List CString) (st0 : Shell),
        st = (if interactive then st0.emit (.write 1 "witsshell> ".toList) else st0).emit
            (.getline (some raw)) →
        line = chomp raw →
        main_loop os interactive (raw :: lines) st0 =
          main_loop os interactive lines (parse_and_execute os st line).1) := by
  obtain ⟨_, new, _, he, hw, hc, _⟩ := parse_and_execute_trace os st line h
  have hwp : waited_pids (new ++ (fork_pids new).map Event.waitpid) =
      fork_pids (new ++ (fork_pids new).map Event.waitpid) := by
    rw [waited_pids_append, fork_pids_append, hw, waited_pids_map, fork_pids_map]
    simp
  refine ⟨new, he, no_waitpid_of_waited_nil hw, by simp, hwp, ?_, ?_⟩
  · rw [hc, waited_pids_append, hw, waited_pids_map]
    rfl
  · intro interactive raw lines st0 hst hline
    subst hst hline
    rw [main_loop]
    rcases hpe : parse_and_execute os
      ((if interactive = true then st0.emit (.write 1 "witsshell> ".toList) else st0).emit
        (.getline (some raw))) (chomp raw) with ⟨st1, _ | u⟩
    · rw [hpe] at h
      simp at h
    · rfl

set_option maxRecDepth 100000 in
/-- C16, what the code does: the line `ls & ls & .. & ls` with 12 words has 23
tokens and no `exit`, yet the run of `parse_and_execute` on it leaves defined
behaviour before any `waitpid`: the write of the 11th segment falls outside
`*commands`, and the launch loop over the 12 segments forks 11 children and
then writes the 11th pid outside `pids`.  The record ends there, with children
launched, no `waitpid` made and the next line not read.  On the line
`ls & ls & ls` the forks are followed by their waits as claimed. -/
theorem children_not_awaited :
    tokenize ((List.replicate 11 "ls & ".toList).flatten ++ "ls".toList) =
        some (List.intersperse AMP (List.replicate 12 "ls".toList)) ∧
      segments_from [] (List.intersperse AMP (List.replicate 12 "ls".toList)) =
        List.replicate 12 ["ls".toList] ∧
      parse_and_execute sample_os (init_path [])
          ((List.replicate 11 "ls & ".toList).flatten ++ "ls".toList) =
        ((init_path []).emit .fault, none) ∧
      (run_commands sample_os true (List.replicate 12 ["ls".toList]) (init_path []) []).2 =
        none ∧
      fork_pids (run_commands sample_os true (List.replicate 12 ["ls".toList])
          (init_path []) []).1.events = [42, 43, 44, 45, 46, 47, 48, 49, 50, 51, 52] ∧
      waited_pids (run_commands sample_os true (List.replicate 12 ["ls".toList])
          (init_path []) []).1.events = [] ∧
      (run_commands sample_os true (List.replicate 12 ["ls".toList])
          (init_path []) []).1.events.getLast? = some .fault ∧
      main_loop sample_os false
          [(List.replicate 11 "ls & ".toList).flatten ++ "ls\n".toList, "ls\n".toList]
          (init_path []) =
        (((init_path []).emit (.getline (some ((List.replicate 11 "ls & ".toList).flatten ++
          "ls\n".toList)))).emit .fault, none) ∧
      (parse_and_execute sample_os (init_path []) "ls & ls & ls".toList).1.events =
        [.call ["ls".toList] false none, .fork 42, .call ["ls".toList] false none, .fork 43,
          .call ["ls".toList] false none, .fork 44, .waitpid 42, .waitpid 43, .waitpid 44] := by
  decide

theorem run_command_launch (os : OS) (par : Bool) (st : Shell) (pids : List Int)
    {command : List CString} {cmd : CString} {rest : List CString} {r : Bool}
    {f : Option CString} {k : Nat}
    (hp : parse_redirection command = .parsed (cmd :: rest) r f)
    (hb : is_builtin cmd = false)
    (hf : os.fork (st.events ++ [.call (cmd :: rest) r f]) = some k)
    (hcap : pids.length < MAX_COMMANDS) :
    run_command os par command st pids =
      ({ path_dirs := st.path_dirs, cwd := st.cwd,
         events := st.events ++ [.call (cmd :: rest) r f, .fork (k + 1)],
         children := st.children ++ [⟨k + 1, child_run os st.path_dirs (cmd :: rest) r f⟩] },
        some (pids ++ [(k : Int) + 1])) := by
  simp only [is_builtin, Bool.or_eq_false_iff, decide_eq_false_iff_not] at hb
  have hk : ((k : Int) + 1 > 0) := by omega
  rw [run_command_parsed os par st pids hp,
    execute_external os st cmd rest r f par hb.1.1 hb.1.2 hb.2, hf]
  simp [Shell.emit, record_pid, hk, hcap]

theorem run_commands_cons_some (os : OS) (par : Bool) (rest : List (List CString))
    {command : List CString} {st st1 : Shell} {pids pids1 : List Int}
    (h : run_command os par command st pids = (st1, some pids1)) :
    run_commands os par (command :: rest) st pids = run_commands os par rest st1 pids1 := by
  rw [run_commands, h]

/-- C17, the claim as stated fails: the line `cd /tmp & ls` has exactly one
`"&"` token and a non-empty segment on each side, yet only one child is
launched, since `cd` is a built-in and never forks. -/
theorem one_marker_counterexample :
    tokenize "cd /tmp & ls".toList = some ["cd".toList, "/tmp".toList, AMP, "ls".toList] ∧
      (tokenize "cd /tmp & ls".toList).map (List.count AMP) = some 1 ∧
      (tokenize "cd /tmp & ls".toList).bind split_commands =
        some [["cd".toList, "/tmp".toList], ["ls".toList]] ∧
      (parse_and_execute sample_os (init_path []) "cd /tmp & ls".toList).1.children.length = 1 ∧
      (parse_and_execute sample_os (init_path []) "cd /tmp & ls".toList).1.events =
        [.call ["cd".toList, "/tmp".toList] false none, .chdir "/tmp".toList true,
          .call ["ls".toList] false none, .fork 42, .waitpid 42] := by
  decide

/-- C17 as amended: for every line with exactly one `"&"` token and a
non-empty segment on each side, when both segments pass the redirection checks
with an argument list whose first token is not a built-in and both forks
succeed, exactly two children are launched, in the order of the line, and
`parse_and_execute` returns after one `waitpid` for each of them, in that
order. -/
theorem one_marker_two_children (os : OS) (st : Shell) (line : CString)
    (seg1 seg2 : List CString) (c1 c2 : CString) (a1 a2 : List CString) (r1 r2 : Bool)
    (f1 f2 : Option CString) (k1 k2 : Nat)
    (ht : tokenize line = some (seg1 ++ AMP :: seg2)) (h1 : AMP ∉ seg1) (h2 : AMP ∉ seg2)
    (hp1 : parse_redirection seg1 = .parsed (c1 :: a1) r1 f1)
    (hp2 : parse_redirection seg2 = .parsed (c2 :: a2) r2 f2)
    (hb1 : is_builtin c1 = false) (hb2 : is_builtin c2 = false)
    (hf1 : os.fork (st.events ++ [.call (c1 :: a1) r1 f1]) = some k1)
    (hf2 : os.fork (st.events ++ [.call (c1 :: a1) r1 f1, .fork (k1 + 1)] ++
      [.call (c2 :: a2) r2 f2]) = some k2) :
    parse_and_execute os st line =
      ({ path_dirs := st.path_dirs, cwd := st.cwd,
         events := st.events ++ [.call (c1 :: a1) r1 f1, .fork (k1 + 1),
           .call (c2 :: a2) r2 f2, .fork (k2 + 1), .waitpid (k1 + 1), .waitpid (k2 + 1)],
         children := st.children ++
           [⟨k1 + 1, child_run os st.path_dirs (c1 :: a1) r1 f1⟩,
            ⟨k2 + 1, child_run os st.path_dirs (c2 :: a2) r2 f2⟩] },
        some ()) := by
  have hn1 : seg1 ≠ [] := by
    intro e
    rw [e] at hp1
    simp [parse_redirection, find_redirect] at hp1
  have hn2 : seg2 ≠ [] := by
    intro e
    rw [e] at hp2
    simp [parse_redirection, find_redirect] at hp2
  have hl : (seg1 ++ AMP :: seg2).length ≠ 0 := by simp
  have hr1 := @run_command_launch os true st [] seg1 c1 a1 r1 f1 k1 hp1 hb1 hf1 (by decide)
  have hr2 := @run_command_launch os true
    { path_dirs := st.path_dirs, cwd := st.cwd,
      events := st.events ++ [.call (c1 :: a1) r1 f1, .fork (k1 + 1)],
      children := st.children ++ [⟨k1 + 1, child_run os st.path_dirs (c1 :: a1) r1 f1⟩] }
    ([] ++ [(k1 : Int) + 1]) seg2 c2 a2 r2 f2 k2 hp2 hb2 hf2 (by simp [MAX_COMMANDS])
  have hpar : decide ([seg1, seg2].length > 1) = true := by simp
  simp only [parse_and_execute, ht, hl, if_false, split_commands_two h1 h2 hn1 hn2, hpar]
  rw [run_commands_cons_some os true [seg2] hr1, run_commands_cons_some os true [] hr2,
    run_commands]
  simp [wait_all, Shell.emit]

theorem one_marker_two_children_witness :
    parse_and_execute sample_os (init_path []) "ls -l > out & pwd".toList =
      ({ path_dirs := ["/bin".toList], cwd := [],
         events := [] ++ [.call ["ls".toList, "-l".toList] true (some "out".toList),
           .fork ((41 : Nat) + 1), .call ["pwd".toList] false none, .fork ((42 : Nat) + 1),
           .waitpid ((41 : Nat) + 1), .waitpid ((42 : Nat) + 1)],
         children := [] ++
           [⟨(41 : Nat) + 1, child_run sample_os ["/bin".toList] ["ls".toList, "-l".toList] true
              (some "out".toList)⟩,
            ⟨(42 : Nat) + 1, child_run sample_os ["/bin".toList] ["pwd".toList] false none⟩] },
        some ()) :=
  one_marker_two_children sample_os (init_path []) "ls -l > out & pwd".toList
    ["ls".toList, "-l".toList, ">".toList, "out".toList] ["pwd".toList] "ls".toList
    "pwd".toList ["-l".toList] [] true false (some "out".toList) none 41 42 (by decide)
    (by decide) (by decide) (by decide) (by decide) (by decide) (by decide) (by decide)
    (by decide)

/-! ## The error stream -/

/-- C18, what the code does: a child that reaches `execv` first writes the
debug line `execv args: ..` to its error stream.  For the line `ls`, with no
failure at all, the child writes `execv args: 'ls' ` and a newline; when
`execv` then fails, the error stream holds the debug line followed by the
fixed message, not the fixed message alone. -/
theorem debug_line_on_error_stream :
    (parse_and_execute sample_os (init_path []) "ls".toList).1.children =
        [⟨42, [.write 2 "execv args: ".toList, .write 2 "'ls' ".toList, .write 2 "\n".toList,
          .execv "/bin/ls".toList ["ls".toList]]⟩] ∧
      written 2 (child_run sample_os ["/bin".toList] ["ls".toList] false none) =
        "execv args: 'ls' \n".toList ∧
      written 2 (child_run (OS.mk sample_os.access sample_os.chdir sample_os.openFile
          sample_os.fork (fun _ _ => false)) ["/bin".toList] ["ls".toList] false none) =
        "execv args: 'ls' \n".toList ++ ERROR_MSG ∧
      written 2 (child_run (OS.mk sample_os.access sample_os.chdir sample_os.openFile
          sample_os.fork (fun _ _ => false)) ["/bin".toList] ["ls".toList] false none) ≠
        ERROR_MSG := by
  decide

/-! ## Capacities -/

set_option maxRecDepth 100000 in
/-- C20, what the code does: nothing limits the counts, and the writes leave
the arrays.  A line of 101 `&` holds 101 tokens, so `tokenize` writes
`(*tokens)[100]`; the line `a&a&..&a` with 11 words stays within 100 tokens but
holds 11 segments, so `split_commands` writes `(*commands)[10]`, and the launch
loop over these 11 segments forks 11 children and writes `pids[10]`; the line
`path d d .. d` with 65 directories stays within 100 tokens and holds 65
entries, so `set_path` writes `path_dirs[64]`.  Each of these runs ends
there. -/
theorem writes_beyond_capacity :
    MAX_TOKENS < (spec_tokens (List.replicate 101 '&')).length ∧
      tokenize (List.replicate 101 '&') = none ∧
      tokenize ((List.replicate 10 "a&".toList).flatten ++ "a".toList) =
        some (List.intersperse AMP (List.replicate 11 "a".toList)) ∧
      (List.intersperse AMP (List.replicate 11 "a".toList)).length ≤ MAX_TOKENS ∧
      MAX_COMMANDS <
        (segments_from [] (List.intersperse AMP (List.replicate 11 "a".toList))).length ∧
      split_commands (List.intersperse AMP (List.replicate 11 "a".toList)) = none ∧
      MAX_COMMANDS <
        (fork_pids (run_commands sample_os true (List.replicate 11 ["a".toList])
          (init_path []) []).1.events).length ∧
      (run_commands sample_os true (List.replicate 11 ["a".toList]) (init_path []) []).2 =
        none ∧
      (run_commands sample_os true (List.replicate 11 ["a".toList])
          (init_path []) []).1.events.getLast? = some .fault ∧
      tokenize ("path".toList ++ (List.replicate 65 " d".toList).flatten) =
        some (PATH :: List.replicate 65 "d".toList) ∧
      (PATH :: List.replicate 65 "d".toList).length ≤ MAX_TOKENS ∧
      MAX_PATH_DIRS < (List.replicate 65 "d".toList).length ∧
      set_path (init_path []) (List.replicate 65 "d".toList) = none ∧
      (parse_and_execute sample_os (init_path [])
          ("path".toList ++ (List.replicate 65 " d".toList).flatten)).1.events.getLast? =
        some .fault := by
  decide

end WitsShell
